import Mathlib

/-!
A verification development for the chess engine in `script.js` of the
Chess-introvert repository.

The board is an 8×8 grid of characters: `'P','N','B','R','Q','K'` are white
pieces, `'p','n','b','r','q','k'` black pieces, `'.'` an empty cell
(`initialBoard` in the source).  Sides are the characters `'w'` and `'b'`,
exactly as in the JavaScript.

JavaScript numbers used as indices are modelled as `Int`; every read the
source guards with `inRange` is modelled by the total accessor `atc` (whose
out-of-range default is never relevant under those guards), while the
unguarded accesses of `makeMoveIfLegal` are modelled precisely, including
the `TypeError` a JavaScript property access on `undefined` raises
(see `jsRowCell` below).
-/

namespace ChessIntrovert

abbrev Board := List (List Char)

/-- Source `initialBoard`: eight rows, each split into characters. -/
def initialBoard : Board :=
  ["rnbqkbnr",
   "pppppppp",
   "........",
   "........",
   "........",
   "........",
   "PPPPPPPP",
   "RNBQKBNR"].map String.toList

/-- Source `inRange(x)`: `x >= 0 && x < 8`. -/
def inRange (x : Int) : Bool := decide (0 ≤ x ∧ x < 8)

/-- Reading `board[r][c]` at Nat indices (total, defaulting to `'.'`).
Every use of this accessor models a source read that is guarded by
`inRange`, so the default never matters there. -/
def natAt (b : Board) (r c : Nat) : Char := (b.getD r []).getD c '.'

/-- Reading `board[r][c]` at Int indices; factors through `natAt`. -/
def atc (b : Board) (r c : Int) : Char := natAt b r.toNat c.toNat

/-- Writing `board[r][c] = v` at Nat indices. -/
def natSet (b : Board) (rn cn : Nat) (v : Char) : Board :=
  b.set rn ((b.getD rn []).set cn v)

/-- Writing `board[r][c] = v` (in-place in JavaScript; functional here).
Out-of-range writes are never performed by the modelled code paths. -/
def setc (b : Board) (r c : Int) (v : Char) : Board :=
  natSet b r.toNat c.toNat v

/-- Source `isPieceOwnedBySide(piece, side)` (for a defined
`piece` character; the `undefined` case is handled at the call site in
`makeMoveIfLegal`). -/
def isPieceOwnedBySide (piece : Char) (side : Char) : Bool :=
  if piece == '.' then false
  else if side == 'w' then piece == piece.toUpper else piece == piece.toLower

/-- Source `pieceColor(p)`: `'w'` for an uppercase character,
`'b'` otherwise.  Note that it returns a lowercase character either way. -/
def pieceColor (p : Char) : Char := if p == p.toUpper then 'w' else 'b'

/-- Source `isOpposite(a,b)`: `pieceColor(a) !== pieceColor(b)`.
The move generator calls it as `isOpposite(pieceColor(p), target)`, i.e.
with a COLOR character as first argument; since `pieceColor('w') = 'b'`
and `pieceColor('b') = 'b'`, that call tests "target is white". -/
def isOpposite (a b : Char) : Bool := pieceColor a != pieceColor b

/-- A move `{from:[fr,fc], to:[tr,tc]}`. -/
structure Move where
  fr : Int
  fc : Int
  tr : Int
  tc : Int
deriving DecidableEq, Repr

/-- The row-major list of cell coordinates the source's
`for (r=0..7) for (c=0..7)` loops iterate over. -/
def cellsIdx : List (Int × Int) :=
  (List.range 8).flatMap (fun r => (List.range 8).map (fun c => ((r : Int), (c : Int))))

/-- Pawn moves pushed by `generateMovesForSide` for a pawn `p` at `(r,c)`:
single step, the two capture directions, then the double step. -/
def pawnMoves (b : Board) (r c : Int) (p : Char) (isWhite : Bool) : List Move :=
  let dir : Int := if isWhite then -1 else 1
  let nr := r + dir
  let single := if inRange nr && (atc b nr c == '.') then [Move.mk r c nr c] else []
  let caps := [(-1 : Int), 1].filterMap (fun dc =>
    let nc := c + dc
    if inRange nr && inRange nc && (atc b nr nc != '.')
        && isOpposite (pieceColor p) (atc b nr nc) then
      some (Move.mk r c nr nc)
    else none)
  let dbl :=
    if (r == (6 : Int) && isWhite) || (r == (1 : Int) && !isWhite) then
      let rr := r + dir * 2
      if (atc b (r + dir) c == '.') && (atc b rr c == '.') then [Move.mk r c rr c] else []
    else []
  single ++ caps ++ dbl

/-- The knight offsets, in source order. -/
def knightDeltas : List (Int × Int) :=
  [(1,2),(2,1),(-1,2),(-2,1),(1,-2),(2,-1),(-1,-2),(-2,-1)]

/-- Knight moves pushed by `generateMovesForSide`. -/
def knightMoves (b : Board) (r c : Int) (p : Char) : List Move :=
  knightDeltas.filterMap (fun d =>
    let rr := r + d.1
    let cc := c + d.2
    if !(inRange rr) || !(inRange cc) then none
    else
      let t2 := atc b rr cc
      if t2 == '.' || isOpposite (pieceColor p) t2 then some (Move.mk r c rr cc) else none)

/-- One ray of a sliding piece: the source's `while (inRange(rr) && inRange(cc))`
walk.  A fuel of 8 steps is an upper bound: starting from an on-board origin
the walk leaves the board after at most 8 steps, so the fuel never truncates
a reachable cell. -/
def rayWalk (b : Board) (r c : Int) (p : Char) (dr dc : Int) :
    Nat → Int → Int → List Move
  | 0, _, _ => []
  | n + 1, rr, cc =>
    if inRange rr && inRange cc then
      let t2 := atc b rr cc
      if t2 == '.' then Move.mk r c rr cc :: rayWalk b r c p dr dc n (rr + dr) (cc + dc)
      else if isOpposite (pieceColor p) t2 then [Move.mk r c rr cc]
      else []
    else []

/-- Direction table for bishop / rook / queen, in source order. -/
def sliderDeltas (t : Char) : List (Int × Int) :=
  if t == 'b' then [(1,1),(1,-1),(-1,1),(-1,-1)]
  else if t == 'r' then [(1,0),(-1,0),(0,1),(0,-1)]
  else [(1,1),(1,-1),(-1,1),(-1,-1),(1,0),(-1,0),(0,1),(0,-1)]

/-- Sliding-piece moves pushed by `generateMovesForSide`. -/
def sliderMoves (b : Board) (r c : Int) (p : Char) (t : Char) : List Move :=
  (sliderDeltas t).flatMap (fun d => rayWalk b r c p d.1 d.2 8 (r + d.1) (c + d.2))

/-- The king's offsets: `dr` outer loop, `dc` inner, skipping `(0,0)`. -/
def kingDeltas : List (Int × Int) :=
  [(-1,-1),(-1,0),(-1,1),(0,-1),(0,1),(1,-1),(1,0),(1,1)]

/-- King moves pushed by `generateMovesForSide`. -/
def kingMoves (b : Board) (r c : Int) (p : Char) : List Move :=
  kingDeltas.filterMap (fun d =>
    let rr := r + d.1
    let cc := c + d.2
    if !(inRange rr) || !(inRange cc) then none
    else
      let t2 := atc b rr cc
      if t2 == '.' || isOpposite (pieceColor p) t2 then some (Move.mk r c rr cc) else none)

/-- Moves pushed for the piece `p` at `(r,c)`: dispatch on `p.toLowerCase()`. -/
def pieceMoves (b : Board) (r c : Int) (p : Char) : List Move :=
  let isWhite := p == p.toUpper
  let t := p.toLower
  if t == 'p' then pawnMoves b r c p isWhite
  else if t == 'n' then knightMoves b r c p
  else if t == 'b' || t == 'r' || t == 'q' then sliderMoves b r c p t
  else if t == 'k' then kingMoves b r c p
  else []

/-- Source `generateMovesForSide(boardState, side)`: row-major scan,
skipping empty cells and pieces whose color does not match `side`. -/
def generateMovesForSide (b : Board) (side : Char) : List Move :=
  cellsIdx.flatMap (fun rc =>
    let p := atc b rc.1 rc.2
    if p == '.' then []
    else if (side == 'w') != (p == p.toUpper) then []
    else pieceMoves b rc.1 rc.2 p)

/-- The `values` table of `evaluateBoardSimple`, applied to `p.toLowerCase()`;
`values[...] || 0` yields 0 for an unknown character. -/
def pieceValue (p : Char) : Int :=
  let t := p.toLower
  if t == 'p' then 100
  else if t == 'n' then 320
  else if t == 'b' then 330
  else if t == 'r' then 500
  else if t == 'q' then 900
  else if t == 'k' then 20000
  else 0

/-- Source `evaluateBoardSimple(boardState)`: fold over all 64 cells,
skipping `'.'`, subtracting the value for a lowercase (black) piece and adding
it otherwise. -/
def evaluateBoardSimple (b : Board) : Int :=
  cellsIdx.foldl (fun score rc =>
    let p := atc b rc.1 rc.2
    if p == '.' then score
    else score + (if p == p.toLower then -(pieceValue p) else pieceValue p)) 0

/-- The thirteen characters a board cell can hold according to the data
model (empty, six white piece types, six black piece types). -/
def validCells : List Char :=
  ['.', 'P', 'N', 'B', 'R', 'Q', 'K', 'p', 'n', 'b', 'r', 'q', 'k']

/-- A board whose cells all hold defined cell values. -/
def ValidBoard (b : Board) : Prop := ∀ row ∈ b, ∀ p ∈ row, p ∈ validCells

instance (b : Board) : Decidable (ValidBoard b) := by
  unfold ValidBoard; infer_instance

/-- The signed material value of one cell, written from the spec's words:
pawn=100, knight=320, bishop=330, rook=500, queen=900, king=20000, positive
for white pieces, negative for black pieces, 0 for an empty cell. -/
def specPieceScore (p : Char) : Int :=
  if p = 'P' then 100 else if p = 'N' then 320 else if p = 'B' then 330
  else if p = 'R' then 500 else if p = 'Q' then 900 else if p = 'K' then 20000
  else if p = 'p' then -100 else if p = 'n' then -320 else if p = 'b' then -330
  else if p = 'r' then -500 else if p = 'q' then -900 else if p = 'k' then -20000
  else 0

/-- The spec's evaluator: the sum over all cells of the signed material
value. -/
def specMaterialScore (b : Board) : Int :=
  (cellsIdx.map (fun rc => specPieceScore (atc b rc.1 rc.2))).sum

/-- The per-cell contribution computed inside `evaluateBoardSimple`'s fold. -/
def codeCellScore (p : Char) : Int :=
  if p == '.' then 0
  else if p == p.toLower then -(pieceValue p) else pieceValue p

/-- Source `cloneBoard(b)` (`b.map(r => r.slice())`): on board
values a deep copy is the identity.  (The aliasing discipline it exists for
is modelled separately by the heap embedding below.) -/
def cloneBoard (b : Board) : Board := b.map (fun row => row)

/-- Source `makeMoveOnBoard(b, move)`: clone, write the moved piece
to the destination, clear the origin. -/
def makeMoveOnBoard (b : Board) (mv : Move) : Board :=
  let nb := cloneBoard b
  let nb1 := setc nb mv.tr mv.tc (atc nb mv.fr mv.fc)
  setc nb1 mv.fr mv.fc '.'

/-- Source `isPathClear(fr,fc,tr,tc)`: walk from the cell after the
origin toward the destination and fail on a non-empty intermediate cell.
The JavaScript `while (r !== tr || c !== tc)` loop is only ever entered for
aligned coordinates (the callers check rook/bishop/queen shape first), where
it runs exactly `max(|tr-fr|,|tc-fc|) - 1` iterations; the walk below
performs exactly those iterations. -/
def pathSteps (b : Board) (dr dc : Int) : Nat → Int → Int → Bool
  | 0, _, _ => true
  | n + 1, r, c => if atc b r c != '.' then false else pathSteps b dr dc n (r + dr) (c + dc)

def isPathClear (b : Board) (fr fc tr tc : Int) : Bool :=
  let dr := Int.sign (tr - fr)
  let dc := Int.sign (tc - fc)
  pathSteps b dr dc (max (tr - fr).natAbs (tc - fc).natAbs - 1) (fr + dr) (fc + dc)

/-- Source `notationForMove(fr,fc,tr,tc,piece,target)` (its move
label string); indices are in range whenever the move was validated. -/
def labelForMove (fr fc tr tc : Int) (piece target : Char) : String :=
  let files := "abcdefgh".toList
  let ranks := "87654321".toList
  String.mk [piece, files.getD fc.toNat ' ', ranks.getD fr.toNat ' '] ++ "-" ++
    String.mk [files.getD tc.toNat ' ', ranks.getD tr.toNat ' '] ++
    (if target != '.' then "x" else "")

/-- One entry of the module-level `moves` history array:
`{from, to, piece, captured, notation}`.  The label field models the
`notation` string. -/
structure MoveRec where
  fr : Int
  fc : Int
  tr : Int
  tc : Int
  piece : Char
  captured : Char
  label : String
deriving DecidableEq, Repr

/-- The module-level mutable state the executor and the undo handler touch:
`board`, `moves`, `sideToMove`, `moveList`.  The two history arrays are
modelled as stacks with the most recent entry at the head (JavaScript
pushes/pops at the array's end). -/
structure GameState where
  board : Board
  moves : List MoveRec
  sideToMove : Char
  moveList : List String
deriving DecidableEq, Repr

/-- The fatal fault a JavaScript property access on `undefined` raises. -/
inductive JsErr where
  | typeError : JsErr
deriving DecidableEq, Repr

/-- The two-step JavaScript read `board[r][c]`, exactly: if `board[r]` is
`undefined` (row index out of range) the `[c]` access THROWS a `TypeError`;
otherwise an out-of-range column yields the value `undefined` (`none`). -/
def jsRowCell (b : Board) (r c : Int) : Except JsErr (Option Char) :=
  if 0 ≤ r ∧ r.toNat < b.length then
    Except.ok (if 0 ≤ c then (b.getD r.toNat []).get? c.toNat else none)
  else Except.error JsErr.typeError

/-- The per-piece-type shape-and-path checks of `makeMoveIfLegal` (the
`if (t === 'p') … else if (t === 'k')` chain), as one Boolean: `true` means
none of those checks hit a `return false`.

Faithfulness notes: the source's pawn double-step branch checks only the
starting rank (`fr===6`/`fr===1`), the piece and the destination rank — it
does NOT look at the intermediate square; and a piece character whose
lowercase form is none of `p,n,b,r,q,k` falls through every `else if`, so
the chain poses no constraint at all (`else true`). -/
def moveShapeOk (b : Board) (mv : Move) (piece target : Char) : Bool :=
  let t := piece.toLower
  if t == 'p' then
    let forward : Int := if piece == 'P' then -1 else 1
    if mv.fc == mv.tc && (target == '.') then
      (mv.tr == mv.fr + forward) ||
        ((mv.fr == (6 : Int) && piece == 'P' && mv.tr == (4 : Int)) ||
         (mv.fr == (1 : Int) && piece == 'p' && mv.tr == (3 : Int)))
    else
      ((mv.tc - mv.fc).natAbs == 1) && (mv.tr == mv.fr + forward) && (target != '.')
  else if t == 'n' then
    ((mv.tr - mv.fr).natAbs == 1 && (mv.tc - mv.fc).natAbs == 2) ||
    ((mv.tr - mv.fr).natAbs == 2 && (mv.tc - mv.fc).natAbs == 1)
  else if t == 'b' then
    ((mv.tr - mv.fr).natAbs == (mv.tc - mv.fc).natAbs) &&
      isPathClear b mv.fr mv.fc mv.tr mv.tc
  else if t == 'r' then
    (mv.tr == mv.fr || mv.tc == mv.fc) &&
      isPathClear b mv.fr mv.fc mv.tr mv.tc
  else if t == 'q' then
    (mv.tr == mv.fr || mv.tc == mv.fc ||
      (mv.tr - mv.fr).natAbs == (mv.tc - mv.fc).natAbs) &&
      isPathClear b mv.fr mv.fc mv.tr mv.tc
  else if t == 'k' then
    decide (max (mv.tr - mv.fr).natAbs (mv.tc - mv.fc).natAbs ≤ 1)
  else true

/-- The state produced by the committing tail of `makeMoveIfLegal` (the
`// make move` block): write destination, clear origin, push the history
entry and its label, flip the side to move. -/
def commitMove (st : GameState) (mv : Move) (piece target : Char) : GameState :=
  let lbl := labelForMove mv.fr mv.fc mv.tr mv.tc piece target
  let b1 := setc st.board mv.tr mv.tc (atc st.board mv.fr mv.fc)
  let b2 := setc b1 mv.fr mv.fc '.'
  { board := b2,
    moves := MoveRec.mk mv.fr mv.fc mv.tr mv.tc piece target lbl :: st.moves,
    sideToMove := if st.sideToMove == 'w' then 'b' else 'w',
    moveList := lbl :: st.moveList }

/-- Source `makeMoveIfLegal(move)`, over an explicit `GameState`.

Faithfulness notes:
* `board[fr][fc]` with an out-of-range row throws (`jsRowCell` error); if the
  cell value is `undefined`, the `piece === '.'` test is false and
  `isPieceOwnedBySide` then evaluates `undefined.toUpperCase()`, which
  throws — hence the `.ok none => .error` branch.  The same happens to an
  `undefined` `target` at the friendly-capture test.
* the unused `dir` binding of the source (line 170) is dead code and omitted;
* `updateMovesUI()` and `playSound('move')` are UI effects outside the core. -/
def makeMoveIfLegal (st : GameState) (mv : Move) : Except JsErr (Bool × GameState) :=
  match jsRowCell st.board mv.fr mv.fc with
  | Except.error e => Except.error e
  | Except.ok none => Except.error JsErr.typeError
  | Except.ok (some piece) =>
    if piece == '.' then Except.ok (false, st)
    else if !(isPieceOwnedBySide piece st.sideToMove) then Except.ok (false, st)
    else if mv.fr == mv.tr && mv.fc == mv.tc then Except.ok (false, st)
    else
      match jsRowCell st.board mv.tr mv.tc with
      | Except.error e => Except.error e
      | Except.ok none => Except.error JsErr.typeError
      | Except.ok (some target) =>
        if (target != '.') && ((target == target.toUpper) == (piece == piece.toUpper)) then
          Except.ok (false, st)
        else if !(moveShapeOk st.board mv piece target) then Except.ok (false, st)
        else Except.ok (true, commitMove st mv piece target)

/-- The undo button's click handler from the source: with an empty history it
returns early having done nothing (the `false` component models that early
exit); otherwise it pops the last move, restores origin and destination,
pops the move label and flips the side to move.  `renderBoard`,
`updateMovesUI` and `playSound('undo')` are UI effects outside the core. -/
def undoState (st : GameState) : Bool × GameState :=
  match st.moves with
  | [] => (false, st)
  | last :: rest =>
    let b1 := setc st.board last.fr last.fc last.piece
    let b2 := setc b1 last.tr last.tc last.captured
    (true,
      { board := b2,
        moves := rest,
        sideToMove := if st.sideToMove == 'w' then 'b' else 'w',
        moveList := st.moveList.tail })

/-- The initial game state: starting board, empty histories, White to move. -/
def initState : GameState := GameState.mk initialBoard [] 'w' []

/-- A board with a white pawn on its starting rank at a2, a black pawn
directly in front of it on a3, and an empty a4. -/
def pawnBlockedBoard : Board :=
  ["........",
   "........",
   "........",
   "........",
   "........",
   "p.......",
   "P.......",
   "........"].map String.toList

/-- Well-formedness of a board value: 8 rows of 8 cells. -/
def BoardWF (b : Board) : Prop := b.length = 8 ∧ ∀ row ∈ b, row.length = 8

instance (b : Board) : Decidable (BoardWF b) := by
  unfold BoardWF; infer_instance

/-- A state whose history already holds one (arbitrary) executed move:
used to exhibit what an undo after a REJECTED move request does. -/
def histState : GameState :=
  GameState.mk initialBoard [MoveRec.mk 4 4 6 4 'Q' '.' "x"] 'w' ["x"]

/-- A move request with an off-board origin or destination coordinate. -/
def OffBoardReq (mv : Move) : Prop :=
  ¬(0 ≤ mv.fr ∧ mv.fr < 8 ∧ 0 ≤ mv.fc ∧ mv.fc < 8 ∧
    0 ≤ mv.tr ∧ mv.tr < 8 ∧ 0 ≤ mv.tc ∧ mv.tc < 8)

instance (mv : Move) : Decidable (OffBoardReq mv) := by
  unfold OffBoardReq; infer_instance

/-! #### The search: minimax with alpha-beta, and its unpruned comparator

The JavaScript passes wall-clock data (`startTime`, `timeLimitMs`) through
the search and breaks out when the budget is exceeded.  The claims below
are about runs in which no deadline check triggers, so the time parameters
and the `performance.now()` branches are dead and omitted from the
embedding; everything else is verbatim.  Scores are JavaScript numbers that
here take only integer values and `±Infinity`, modelled by `XInt`. -/

/-- A JavaScript number as used by the search: an integer or `±Infinity`. -/
inductive XInt where
  | negInf : XInt
  | fin : Int → XInt
  | posInf : XInt
deriving DecidableEq, Repr

/-- Comparison `a <= b` on search scores. -/
def XInt.le : XInt → XInt → Bool
  | XInt.negInf, _ => true
  | XInt.fin _, XInt.negInf => false
  | XInt.fin a, XInt.fin b => decide (a ≤ b)
  | XInt.fin _, XInt.posInf => true
  | XInt.posInf, XInt.posInf => true
  | XInt.posInf, _ => false

/-- Comparison `a < b` on search scores. -/
def XInt.lt : XInt → XInt → Bool
  | _, XInt.negInf => false
  | XInt.negInf, _ => true
  | XInt.fin a, XInt.fin b => decide (a < b)
  | XInt.fin _, XInt.posInf => true
  | XInt.posInf, _ => false

/-- JavaScript `Math.max` on search scores. -/
def XInt.max : XInt → XInt → XInt
  | XInt.negInf, y => y
  | x, XInt.negInf => x
  | XInt.posInf, _ => XInt.posInf
  | _, XInt.posInf => XInt.posInf
  | XInt.fin a, XInt.fin b => XInt.fin (Max.max a b)

/-- JavaScript `Math.min` on search scores. -/
def XInt.min : XInt → XInt → XInt
  | XInt.posInf, y => y
  | x, XInt.posInf => x
  | XInt.negInf, _ => XInt.negInf
  | _, XInt.negInf => XInt.negInf
  | XInt.fin a, XInt.fin b => XInt.fin (Min.min a b)

/-- The root's move-ordering key: the destination holds a piece. -/
def isCaptureMove (b : Board) (mv : Move) : Bool := atc b mv.tr mv.tc != '.'

/-- Root ordering `moves.sort((a,b) => (tb!=='.') - (ta!=='.'))`:
JavaScript's sort is stable, and with this two-valued comparator a stable
sort is exactly a stable partition — every capture move first, then every
non-capture, ties in generator order. -/
def sortCapturesFirst (b : Board) (ms : List Move) : List Move :=
  ms.filter (fun mv => isCaptureMove b mv) ++ ms.filter (fun mv => !(isCaptureMove b mv))

/-- The candidate list an internal `minimax` node iterates over: the raw
generator output.  The source applies NO capture-first ordering inside
`minimax`; only `minimaxRoot` sorts. -/
def nodeMoves (b : Board) (side : Char) : List Move := generateMovesForSide b side

/-- A move list in which every capture move precedes every non-capture. -/
def capturesFirst (b : Board) : List Move → Bool
  | [] => true
  | mv :: rest =>
    if isCaptureMove b mv then capturesFirst b rest
    else rest.all (fun m => !(isCaptureMove b m))

/-- The maximizing (`side === 'w'`) loop of `minimax`: running maximum,
alpha tightening, break once `beta <= alpha`.  `f nb a` is the recursive
call on the child at the current alpha (beta is fixed for the node). -/
def abMaxLoop (f : Board → XInt → XInt) (b : Board) (β : XInt) :
    List Move → XInt → XInt → XInt
  | [], maxEval, _ => maxEval
  | mv :: rest, maxEval, alpha =>
    let ev := f (makeMoveOnBoard b mv) alpha
    let maxEval' := XInt.max maxEval ev
    let alpha' := XInt.max alpha ev
    if XInt.le β alpha' then maxEval' else abMaxLoop f b β rest maxEval' alpha'

/-- The minimizing loop of `minimax`: running minimum, beta tightening,
break once `beta <= alpha`.  `f nb bta` is the recursive call on the child
at the current beta (alpha is fixed for the node). -/
def abMinLoop (f : Board → XInt → XInt) (b : Board) (α : XInt) :
    List Move → XInt → XInt → XInt
  | [], minEval, _ => minEval
  | mv :: rest, minEval, beta =>
    let ev := f (makeMoveOnBoard b mv) beta
    let minEval' := XInt.min minEval ev
    let beta' := XInt.min beta ev
    if XInt.le beta' α then minEval' else abMinLoop f b α rest minEval' beta'

/-- Source `minimax(boardState, depth, side, alpha, beta, startTime, timeLimitMs)`, for runs in which no time cutoff triggers: static
evaluation at depth 0 and when no moves exist, otherwise the maximizing or
minimizing alpha-beta loop over the (unsorted) generated moves. -/
def minimax : Nat → Board → Char → XInt → XInt → XInt
  | 0, b, _, _, _ => XInt.fin (evaluateBoardSimple b)
  | d + 1, b, side, α, β =>
    let moves := nodeMoves b side
    if moves.isEmpty then XInt.fin (evaluateBoardSimple b)
    else if side == 'w' then
      abMaxLoop (fun nb a => minimax d nb 'b' a β) b β moves XInt.negInf α
    else
      abMinLoop (fun nb bta => minimax d nb 'w' α bta) b α moves XInt.posInf β

/-- The same recursion run with alpha fixed to -∞, beta fixed to +∞ and no
`beta <= alpha` break (the claim's pruning-disabled comparator): plain
minimax as a fold of max/min over the children. -/
def minimaxUnpruned : Nat → Board → Char → XInt
  | 0, b, _ => XInt.fin (evaluateBoardSimple b)
  | d + 1, b, side =>
    let moves := nodeMoves b side
    if moves.isEmpty then XInt.fin (evaluateBoardSimple b)
    else if side == 'w' then
      moves.foldl
        (fun acc mv => XInt.max acc (minimaxUnpruned d (makeMoveOnBoard b mv) 'b'))
        XInt.negInf
    else
      moves.foldl
        (fun acc mv => XInt.min acc (minimaxUnpruned d (makeMoveOnBoard b mv) 'w'))
        XInt.posInf

/-- The root's best-move loop, generic in the child-scoring function:
strict improvement (`score > bestScore` / `score < bestScore`) records the
move, ties keep the earlier one.  (The source's per-iteration time guard is
dead under a non-triggering budget.) -/
def rootLoop (score : Move → XInt) (side : Char) :
    List Move → Option Move → XInt → Option Move × XInt
  | [], best, bestScore => (best, bestScore)
  | mv :: rest, best, bestScore =>
    let s := score mv
    if side == 'w' then
      if XInt.lt bestScore s then rootLoop score side rest (some mv) s
      else rootLoop score side rest best bestScore
    else
      if XInt.lt s bestScore then rootLoop score side rest (some mv) s
      else rootLoop score side rest best bestScore

/-- Source `minimaxRoot(boardState, depth, side, timeLimitMs)` with a
non-triggering time budget.  Each root child is searched with the full
window `(-∞, +∞)`.  The pair is the loop's final `(bestMove, bestScore)`
(the source returns `bestMove`; `bestScore` is the local it tracks). -/
def minimaxRoot (b : Board) (depth : Nat) (side : Char) : Option Move × XInt :=
  let moves := sortCapturesFirst b (generateMovesForSide b side)
  rootLoop
    (fun mv => minimax (depth - 1) (makeMoveOnBoard b mv)
      (if side == 'w' then 'b' else 'w') XInt.negInf XInt.posInf)
    side moves none (if side == 'w' then XInt.negInf else XInt.posInf)

/-- The root search with pruning disabled, per the claim's words. -/
def minimaxRootUnpruned (b : Board) (depth : Nat) (side : Char) : Option Move × XInt :=
  let moves := sortCapturesFirst b (generateMovesForSide b side)
  rootLoop
    (fun mv => minimaxUnpruned (depth - 1) (makeMoveOnBoard b mv)
      (if side == 'w' then 'b' else 'w'))
    side moves none (if side == 'w' then XInt.negInf else XInt.posInf)

/-- A board on which the generator's move order for Black puts a capture
last: black rook a8, white pawn c8, nothing else. -/
def rookCaptureLastBoard : Board :=
  ["r.P.....",
   "........",
   "........",
   "........",
   "........",
   "........",
   "........",
   "........"].map String.toList

/-- A small position for concrete search evaluations: two kings. -/
def twoKingsBoard : Board :=
  ["....k...",
   "........",
   "........",
   "........",
   "........",
   "........",
   "........",
   "....K..."].map String.toList

/-- All four coordinates of a move lie on the board. -/
def MoveInRange (mv : Move) : Prop :=
  0 ≤ mv.fr ∧ mv.fr < 8 ∧ 0 ≤ mv.fc ∧ mv.fc < 8 ∧
    0 ≤ mv.tr ∧ mv.tr < 8 ∧ 0 ≤ mv.tc ∧ mv.tc < 8

instance (mv : Move) : Decidable (MoveInRange mv) := by
  unfold MoveInRange; infer_instance

/-! #### A heap model of board aliasing

In JavaScript a board is an array of ROW REFERENCES; `cloneBoard` allocates
fresh rows (`b.map(r => r.slice())`) and `makeMoveOnBoard` then writes into
the clone.  The claim that the search never mutates the caller's board is a
statement about these references, which the pure value embedding cannot
express.  The heap model below makes it expressible: a `Heap` is the store
of all allocated rows, a `BoardRef` is a board as a list of row indices,
allocation appends to the store, and a write goes through an index.  The
search functions are re-expressed over this model with the same structure
as above; the theorem shows every heap cell that existed before a search
call holds the same row afterwards. -/

abbrev Heap := List (List Char)

abbrev BoardRef := List Nat

/-- The row references of an 8-row heap, in order. -/
def boardRef8 : BoardRef := [0, 1, 2, 3, 4, 5, 6, 7]

/-- Reading a whole board out of the heap. -/
def derefBoard (h : Heap) (br : BoardRef) : Board := br.map (fun i => h.getD i [])

/-- Heap `cloneBoard(b)`: allocate a fresh copy of every row of `br` at the end
of the heap and return the new row indices. -/
def cloneBoardH (h : Heap) (br : BoardRef) : Heap × BoardRef :=
  (h ++ br.map (fun i => h.getD i []),
   (List.range br.length).map (fun k => h.length + k))

/-- Assignment `b[r][c] = v` through a row reference. -/
def writeCellH (h : Heap) (br : BoardRef) (r c : Int) (v : Char) : Heap :=
  let idx := br.getD r.toNat 0
  h.set idx ((h.getD idx []).set c.toNat v)

/-- Heap `makeMoveOnBoard(b, move)`: clone, then write the two
cells of the clone. -/
def makeMoveOnBoardH (h : Heap) (br : BoardRef) (mv : Move) : Heap × BoardRef :=
  let p1 := cloneBoardH h br
  let h2 := writeCellH p1.1 p1.2 mv.tr mv.tc (atc (derefBoard p1.1 p1.2) mv.fr mv.fc)
  let h3 := writeCellH h2 p1.2 mv.fr mv.fc '.'
  (h3, p1.2)

/-- The maximizing loop of `minimax`, heap-threaded. -/
def abMaxLoopH (f : Heap → BoardRef → XInt → Heap × XInt) (br : BoardRef) (β : XInt) :
    List Move → Heap → XInt → XInt → Heap × XInt
  | [], h, maxEval, _ => (h, maxEval)
  | mv :: rest, h, maxEval, alpha =>
    let p := makeMoveOnBoardH h br mv
    let q := f p.1 p.2 alpha
    let maxEval' := XInt.max maxEval q.2
    let alpha' := XInt.max alpha q.2
    if XInt.le β alpha' then (q.1, maxEval')
    else abMaxLoopH f br β rest q.1 maxEval' alpha'

/-- The minimizing loop of `minimax`, heap-threaded. -/
def abMinLoopH (f : Heap → BoardRef → XInt → Heap × XInt) (br : BoardRef) (α : XInt) :
    List Move → Heap → XInt → XInt → Heap × XInt
  | [], h, minEval, _ => (h, minEval)
  | mv :: rest, h, minEval, beta =>
    let p := makeMoveOnBoardH h br mv
    let q := f p.1 p.2 beta
    let minEval' := XInt.min minEval q.2
    let beta' := XInt.min beta q.2
    if XInt.le beta' α then (q.1, minEval')
    else abMinLoopH f br α rest q.1 minEval' beta'

/-- Heap `minimax` (non-triggering time budget): identical
structure, with every child position a fresh clone. -/
def minimaxH : Nat → Heap → BoardRef → Char → XInt → XInt → Heap × XInt
  | 0, h, br, _, _, _ => (h, XInt.fin (evaluateBoardSimple (derefBoard h br)))
  | d + 1, h, br, side, α, β =>
    let moves := nodeMoves (derefBoard h br) side
    if moves.isEmpty then (h, XInt.fin (evaluateBoardSimple (derefBoard h br)))
    else if side == 'w' then
      abMaxLoopH (fun h2 nb a => minimaxH d h2 nb 'b' a β) br β moves h XInt.negInf α
    else
      abMinLoopH (fun h2 nb bta => minimaxH d h2 nb 'w' α bta) br α moves h XInt.posInf β

/-- The root loop of `minimaxRoot`, heap-threaded. -/
def rootLoopH (sc : Heap → Move → Heap × XInt) (side : Char) :
    List Move → Heap → Option Move → XInt → Heap × (Option Move × XInt)
  | [], h, best, bestScore => (h, (best, bestScore))
  | mv :: rest, h, best, bestScore =>
    let q := sc h mv
    if side == 'w' then
      if XInt.lt bestScore q.2 then rootLoopH sc side rest q.1 (some mv) q.2
      else rootLoopH sc side rest q.1 best bestScore
    else
      if XInt.lt q.2 bestScore then rootLoopH sc side rest q.1 (some mv) q.2
      else rootLoopH sc side rest q.1 best bestScore

/-- Heap `minimaxRoot` (non-triggering time budget). -/
def minimaxRootH (h : Heap) (br : BoardRef) (depth : Nat) (side : Char) :
    Heap × (Option Move × XInt) :=
  let moves := sortCapturesFirst (derefBoard h br) (generateMovesForSide (derefBoard h br) side)
  rootLoopH
    (fun h2 mv =>
      let p := makeMoveOnBoardH h2 br mv
      minimaxH (depth - 1) p.1 p.2 (if side == 'w' then 'b' else 'w')
        XInt.negInf XInt.posInf)
    side moves h none (if side == 'w' then XInt.negInf else XInt.posInf)

/-- Heap extension: the new heap keeps every pre-existing row unchanged
(fresh rows may have been appended, and only fresh rows were written). -/
def HeapExt (h h2 : Heap) : Prop :=
  h.length ≤ h2.length ∧ ∀ i, i < h.length → h2.getD i [] = h.getD i []

/-! ### Theorems -/

lemma codeCellScore_eq_spec : ∀ p ∈ validCells, codeCellScore p = specPieceScore p := by
  decide

lemma atc_mem_validCells {b : Board} (hb : ValidBoard b) (r c : Int) :
    atc b r c ∈ validCells := by
  unfold atc natAt
  rcases hrow : b.get? r.toNat with _ | row
  · simp only [List.getD, hrow, Option.getD_none]
    simp [validCells]
  · have hmem : row ∈ b := List.get?_mem hrow
    rcases hcell : row.get? c.toNat with _ | p
    · simp only [List.getD, hrow, Option.getD_some, hcell, Option.getD_none]
      simp [validCells]
    · simp only [List.getD, hrow, Option.getD_some, hcell]
      exact hb row hmem p (List.get?_mem hcell)

lemma foldl_add_eq_sum_map (g : (Int × Int) → Int) (step : Int → (Int × Int) → Int)
    (hstep : ∀ s rc, step s rc = s + g rc) :
    ∀ (l : List (Int × Int)) (s : Int), l.foldl step s = s + (l.map g).sum := by
  intro l
  induction l with
  | nil => intro s; simp
  | cons rc rest ih =>
    intro s
    simp only [List.foldl_cons, List.map_cons, List.sum_cons, hstep]
    rw [ih]
    ring

/-- Lemma: `evaluateBoardSimple` computes exactly the spec's signed material sum on
every board whose cells are defined cell values. -/
lemma evaluateBoardSimple_eq_spec (b : Board) (hb : ValidBoard b) :
    evaluateBoardSimple b = specMaterialScore b := by
  unfold evaluateBoardSimple specMaterialScore
  rw [foldl_add_eq_sum_map (fun rc => specPieceScore (atc b rc.1 rc.2))
      (fun score rc =>
        let p := atc b rc.1 rc.2
        if p == '.' then score
        else score + (if p == p.toLower then -(pieceValue p) else pieceValue p))
      ?_ cellsIdx 0]
  · simp
  · intro s rc
    have hv := atc_mem_validCells hb rc.1 rc.2
    have := codeCellScore_eq_spec (atc b rc.1 rc.2) hv
    simp only [codeCellScore] at this
    simp only []
    rw [← this]
    split
    · simp
    · rfl

/-- C7: `evaluateBoardSimple(board)` equals, for every board (whose cells are
defined cell values per the data model), the sum over occupied cells of
pawn=100, knight=320, bishop=330, rook=500, queen=900, king=20000, positive
for white pieces and negative for black pieces; and it returns exactly 0 on
the standard starting position. -/
theorem C7_evaluator_material_sum :
    (∀ b : Board, ValidBoard b → evaluateBoardSimple b = specMaterialScore b) ∧
    evaluateBoardSimple initialBoard = 0 :=
  ⟨fun b hb => evaluateBoardSimple_eq_spec b hb, by decide⟩

theorem C7_evaluator_material_sum_witness :
    ValidBoard initialBoard ∧ evaluateBoardSimple initialBoard = specMaterialScore initialBoard :=
  ⟨by decide, C7_evaluator_material_sum.1 initialBoard (by decide)⟩

lemma natAt_natSet_self {b : Board} {rn cn : Nat} (v : Char)
    (hr : rn < b.length) (hc : cn < (b.getD rn []).length) :
    natAt (natSet b rn cn v) rn cn = v := by
  unfold natAt natSet
  simp only [List.getD_eq_getElem?_getD]
  rw [List.getElem?_set_self (by simpa using hr)]
  simp only [Option.getD_some]
  rw [List.getElem?_set_self (by simpa using hc)]
  rfl

lemma natAt_natSet_ne {b : Board} {rn cn rn' cn' : Nat} (v : Char)
    (h : rn ≠ rn' ∨ cn ≠ cn') :
    natAt (natSet b rn cn v) rn' cn' = natAt b rn' cn' := by
  unfold natAt natSet
  simp only [List.getD_eq_getElem?_getD]
  by_cases hr : rn = rn'
  · subst hr
    have hc : cn ≠ cn' := by tauto
    by_cases hlen : rn < b.length
    · rw [List.getElem?_set_self hlen]
      simp only [Option.getD_some]
      rw [List.getElem?_set_ne hc]
    · rw [List.set_eq_of_length_le (Nat.le_of_not_lt hlen)]
  · rw [List.getElem?_set_ne hr]

lemma length_natSet (b : Board) (rn cn : Nat) (v : Char) :
    (natSet b rn cn v).length = b.length := by
  unfold natSet
  exact List.length_set b rn _

lemma jsRowCell_ok_some {b : Board} {r c : Int} {p : Char}
    (h : jsRowCell b r c = Except.ok (some p)) :
    (0 ≤ r ∧ r.toNat < b.length) ∧
      (0 ≤ c ∧ c.toNat < (b.getD r.toNat []).length) ∧
      natAt b r.toNat c.toNat = p := by
  unfold jsRowCell at h
  split at h
  · rename_i hr
    injection h with h1
    split at h1
    · rename_i hc
      obtain ⟨hlt, _⟩ := List.get?_eq_some.mp h1
      refine ⟨hr, ⟨hc, hlt⟩, ?_⟩
      unfold natAt
      rw [List.getD_eq_getElem?_getD, ← List.get?_eq_getElem?, h1]
      rfl
    · exact absurd h1 (by simp)
  · exact Except.noConfusion h

/-- C9: undoing with an empty move history performs nothing: the handler
returns early (modelled by the `false` component) and leaves the board, the
side to move and both history lists exactly unchanged. -/
theorem C9_undo_empty_history (st : GameState) (h : st.moves = []) :
    undoState st = (false, st) := by
  unfold undoState
  rw [h]

theorem C9_undo_empty_history_witness :
    (GameState.mk initialBoard [] 'w' []).moves = [] ∧
      undoState (GameState.mk initialBoard [] 'w' []) =
        (false, GameState.mk initialBoard [] 'w' []) :=
  ⟨rfl, C9_undo_empty_history (GameState.mk initialBoard [] 'w' []) rfl⟩

/-- Every `return false` path of `makeMoveIfLegal` returns the state it was
given, untouched: the board writes and history pushes happen only on the
single success path. -/
lemma makeMoveIfLegal_false_eq {st : GameState} {mv : Move} {st' : GameState}
    (h : makeMoveIfLegal st mv = Except.ok (false, st')) : st' = st := by
  unfold makeMoveIfLegal at h
  split at h
  · exact Except.noConfusion h
  · exact Except.noConfusion h
  · split at h
    · injection h with h2
      injection h2 with h3 h4
      exact h4.symm
    · split at h
      · injection h with h2
        injection h2 with h3 h4
        exact h4.symm
      · split at h
        · injection h with h2
          injection h2 with h3 h4
          exact h4.symm
        · split at h
          · exact Except.noConfusion h
          · exact Except.noConfusion h
          · split at h
            · injection h with h2
              injection h2 with h3 h4
              exact h4.symm
            · split at h
              · injection h with h2
                injection h2 with h3 h4
                exact h4.symm
              · injection h with h2
                injection h2 with h3 h4
                exact Bool.noConfusion h3

/-- C10: whenever `makeMoveIfLegal` rejects a move request (returns `false`),
the board, the side to move and both history lists are exactly as before the
call: rejection is atomic. -/
theorem C10_rejection_atomic (st : GameState) (mv : Move) (st' : GameState)
    (h : makeMoveIfLegal st mv = Except.ok (false, st')) :
    st'.board = st.board ∧ st'.sideToMove = st.sideToMove ∧
      st'.moves = st.moves ∧ st'.moveList = st.moveList := by
  rw [makeMoveIfLegal_false_eq h]
  exact ⟨rfl, rfl, rfl, rfl⟩

theorem C10_rejection_atomic_witness :
    makeMoveIfLegal (GameState.mk initialBoard [] 'w' []) (Move.mk 0 0 0 1) =
        Except.ok (false, GameState.mk initialBoard [] 'w' []) ∧
      (GameState.mk initialBoard [] 'w' []).board = initialBoard :=
  ⟨by rfl,
   (C10_rejection_atomic (GameState.mk initialBoard [] 'w' [])
       (Move.mk 0 0 0 1) (GameState.mk initialBoard [] 'w' []) (by rfl)).1⟩

/-- C3: the claim "every generated move's destination is not occupied by a
piece of the moving side" fails on the code.  Because `isOpposite` receives
`pieceColor(p)` (a color character) instead of the piece itself, the
generator's capture test degenerates to "destination is white": from the
standard starting position, White's move list contains the knight move
b1→(6,3) whose destination holds White's own pawn `'P'`. -/
theorem C3_white_own_capture_generated :
    Move.mk 7 1 6 3 ∈ generateMovesForSide initialBoard 'w' ∧
    atc initialBoard 7 1 = 'N' ∧
    atc initialBoard 6 3 = 'P' ∧
    isPieceOwnedBySide 'P' 'w' = true ∧
    isOpposite (pieceColor 'N') 'P' = true := by
  decide

/-- Anatomy of a successful `makeMoveIfLegal` call: both endpoint reads
succeeded with defined cell values, the move is not a null move, and the
returned state is the committed one. -/
lemma makeMoveIfLegal_true_spec {st : GameState} {mv : Move} {st' : GameState}
    (h : makeMoveIfLegal st mv = Except.ok (true, st')) :
    ∃ piece target,
      jsRowCell st.board mv.fr mv.fc = Except.ok (some piece) ∧
      jsRowCell st.board mv.tr mv.tc = Except.ok (some target) ∧
      ¬((mv.fr == mv.tr && mv.fc == mv.tc) = true) ∧
      st' = commitMove st mv piece target := by
  unfold makeMoveIfLegal at h
  split at h
  · exact Except.noConfusion h
  · exact Except.noConfusion h
  · rename_i piece hpiece
    split at h
    · injection h with h2; injection h2 with h3 _; exact Bool.noConfusion h3
    · split at h
      · injection h with h2; injection h2 with h3 _; exact Bool.noConfusion h3
      · split at h
        · injection h with h2; injection h2 with h3 _; exact Bool.noConfusion h3
        · rename_i hss
          split at h
          · exact Except.noConfusion h
          · exact Except.noConfusion h
          · rename_i target htarget
            split at h
            · injection h with h2; injection h2 with h3 _; exact Bool.noConfusion h3
            · split at h
              · injection h with h2; injection h2 with h3 _; exact Bool.noConfusion h3
              · injection h with h2
                injection h2 with _ h4
                exact ⟨piece, target, hpiece, htarget, hss, h4.symm⟩

lemma getD_row_length {b : Board} (hrows : ∀ row ∈ b, row.length = 8) {rn : Nat}
    (hr : rn < b.length) : (b.getD rn []).length = 8 := by
  rw [List.getD_eq_getElem?_getD, List.getElem?_eq_getElem hr]
  exact hrows b[rn] (List.getElem?_mem (List.getElem?_eq_getElem hr))

lemma rows_length_natSet {b : Board} (hrows : ∀ row ∈ b, row.length = 8)
    (rn cn : Nat) (v : Char) : ∀ row ∈ natSet b rn cn v, row.length = 8 := by
  by_cases hr : rn < b.length
  · intro row hrow
    rcases List.mem_or_eq_of_mem_set hrow with hmem | heq
    · exact hrows row hmem
    · rw [heq, List.length_set]
      exact getD_row_length hrows hr
  · unfold natSet
    rw [List.set_eq_of_length_le (Nat.le_of_not_lt hr)]
    exact hrows

/-- The coordinates of a request `makeMoveIfLegal` accepts are all on the
board (on a well-formed board every read that returned a defined value was
in range). -/
lemma makeMoveIfLegal_true_inRange {st : GameState} {mv : Move} {st' : GameState}
    (hlen : st.board.length = 8) (hrows : ∀ row ∈ st.board, row.length = 8)
    (h : makeMoveIfLegal st mv = Except.ok (true, st')) :
    (0 ≤ mv.fr ∧ mv.fr < 8) ∧ (0 ≤ mv.fc ∧ mv.fc < 8) ∧
      (0 ≤ mv.tr ∧ mv.tr < 8) ∧ (0 ≤ mv.tc ∧ mv.tc < 8) := by
  obtain ⟨piece, target, h1, h2, _, _⟩ := makeMoveIfLegal_true_spec h
  obtain ⟨⟨hfr0, hfrlt⟩, ⟨hfc0, hfclt⟩, _⟩ := jsRowCell_ok_some h1
  obtain ⟨⟨htr0, htrlt⟩, ⟨htc0, htclt⟩, _⟩ := jsRowCell_ok_some h2
  rw [hlen] at hfrlt htrlt
  rw [getD_row_length hrows (hlen ▸ hfrlt)] at hfclt
  rw [getD_row_length hrows (hlen ▸ htrlt)] at htclt
  omega

/-- C4 (amended): on a well-formed board, a move request with an off-board
origin or destination never mutates the state, but it is rejected in two
different ways: either `makeMoveIfLegal` returns `false` with the state
untouched (possible only when the origin is on-board and holds no piece of
the side to move), or the unguarded JavaScript property access raises a
fatal `TypeError` — it does NOT always return a failure indicator. -/
theorem C4_offboard_rejected_or_fault (st : GameState) (mv : Move)
    (hlen : st.board.length = 8) (hrows : ∀ row ∈ st.board, row.length = 8)
    (hoff : OffBoardReq mv) :
    makeMoveIfLegal st mv = Except.error JsErr.typeError ∨
      makeMoveIfLegal st mv = Except.ok (false, st) := by
  rcases hres : makeMoveIfLegal st mv with e | p
  · cases e
    exact Or.inl rfl
  · rcases p with ⟨b, st'⟩
    cases b
    · have hst := makeMoveIfLegal_false_eq hres
      subst hst
      exact Or.inr rfl
    · obtain ⟨h1, h2, h3, h4⟩ := makeMoveIfLegal_true_inRange hlen hrows hres
      exact absurd ⟨h1.1, h1.2, h2.1, h2.2, h3.1, h3.2, h4.1, h4.2⟩ hoff

theorem C4_offboard_rejected_or_fault_witness :
    makeMoveIfLegal initState (Move.mk 3 3 9 9) = Except.error JsErr.typeError ∨
      makeMoveIfLegal initState (Move.mk 3 3 9 9) = Except.ok (false, initState) :=
  C4_offboard_rejected_or_fault initState (Move.mk 3 3 9 9)
    (by decide) (by decide) (by decide)

/-- C4 (counterexample to the claim as stated): the request moving White's
pawn from (6,0) to the off-board square (8,0) does not return `false` — the
read `board[8][0]` is an access on `undefined` and raises a fatal
`TypeError`. -/
theorem C4_counterexample_fatal_fault :
    makeMoveIfLegal initState (Move.mk 6 0 8 0) = Except.error JsErr.typeError ∧
      ¬((8 : Int) < 8) := by
  exact ⟨by rfl, by decide⟩

/-- C5: the validating executor accepts a pawn double-step over an OCCUPIED
intermediate square: on `pawnBlockedBoard` (white pawn a2, black pawn a3,
empty a4) the request a2→a4 is accepted and committed, although the
generator — which does check both squares — does not generate it.  This
contradicts the claim that a two-step move is accepted only when the
intermediate square is empty. -/
theorem C5_pawn_jump_accepted :
    atc pawnBlockedBoard 6 0 = 'P' ∧
    atc pawnBlockedBoard 5 0 = 'p' ∧
    atc pawnBlockedBoard 4 0 = '.' ∧
    makeMoveIfLegal (GameState.mk pawnBlockedBoard [] 'w' []) (Move.mk 6 0 4 0) =
      Except.ok (true,
        commitMove (GameState.mk pawnBlockedBoard [] 'w' []) (Move.mk 6 0 4 0) 'P' '.') ∧
    Move.mk 6 0 4 0 ∉ generateMovesForSide pawnBlockedBoard 'w' := by
  exact ⟨by decide, by decide, by decide, by rfl, by decide⟩

/-- Undoing the execute-then-undo of one move request restores every cell:
the Nat-index core of the round-trip argument, stated over the four writes
the executor and the undo handler perform. -/
lemma natAt_roundtrip (b : Board) (frn fcn trn tcn : Nat) (piece target : Char)
    (hlen : b.length = 8) (hrows : ∀ row ∈ b, row.length = 8)
    (hfr : frn < 8) (hfc : fcn < 8) (htr : trn < 8) (htc : tcn < 8)
    (hne : frn ≠ trn ∨ fcn ≠ tcn)
    (hp : natAt b frn fcn = piece) (ht : natAt b trn tcn = target) :
    ∀ rn cn : Nat,
      natAt (natSet (natSet (natSet (natSet b trn tcn piece) frn fcn '.')
        frn fcn piece) trn tcn target) rn cn = natAt b rn cn := by
  intro rn cn
  have len1 : (natSet b trn tcn piece).length = 8 := by rw [length_natSet, hlen]
  have rows1 := rows_length_natSet hrows trn tcn piece
  have len2 : (natSet (natSet b trn tcn piece) frn fcn '.').length = 8 := by
    rw [length_natSet, len1]
  have rows2 := rows_length_natSet rows1 frn fcn '.'
  have len3 : (natSet (natSet (natSet b trn tcn piece) frn fcn '.') frn fcn piece).length = 8 := by
    rw [length_natSet, len2]
  have rows3 := rows_length_natSet rows2 frn fcn piece
  by_cases hT : rn = trn ∧ cn = tcn
  · obtain ⟨h1, h2⟩ := hT
    subst h1
    subst h2
    rw [natAt_natSet_self target (by rw [len3]; exact htr)
      (by rw [getD_row_length rows3 (by rw [len3]; exact htr)]; exact htc), ht]
  · by_cases hF : rn = frn ∧ cn = fcn
    · obtain ⟨h1, h2⟩ := hF
      subst h1
      subst h2
      have hne' : trn ≠ rn ∨ tcn ≠ cn := by tauto
      rw [natAt_natSet_ne target hne']
      rw [natAt_natSet_self piece (by rw [len2]; exact hfr)
        (by rw [getD_row_length rows2 (by rw [len2]; exact hfr)]; exact hfc), hp]
    · have hT' : trn ≠ rn ∨ tcn ≠ cn := by tauto
      have hF' : frn ≠ rn ∨ fcn ≠ cn := by tauto
      rw [natAt_natSet_ne target hT', natAt_natSet_ne piece hF',
        natAt_natSet_ne '.' hF', natAt_natSet_ne piece hT']

/-- C2 (amended): for every well-formed game state and every generated move
that `makeMoveIfLegal` ACCEPTS, executing the move and then performing one
undo restores every cell of the board, the side to move and both history
lists exactly. -/
theorem C2_roundtrip_after_accepted_move (st : GameState) (mv : Move) (st' : GameState)
    (hlen : st.board.length = 8) (hrows : ∀ row ∈ st.board, row.length = 8)
    (hside : st.sideToMove = 'w' ∨ st.sideToMove = 'b')
    (hmv : mv ∈ generateMovesForSide st.board st.sideToMove)
    (hacc : makeMoveIfLegal st mv = Except.ok (true, st')) :
    (undoState st').1 = true ∧
    (∀ r c : Int, atc (undoState st').2.board r c = atc st.board r c) ∧
    (undoState st').2.sideToMove = st.sideToMove ∧
    (undoState st').2.moves = st.moves ∧
    (undoState st').2.moveList = st.moveList := by
  obtain ⟨piece, target, h1, h2, hss, hcommit⟩ := makeMoveIfLegal_true_spec hacc
  obtain ⟨⟨hfr0, hfrlt⟩, ⟨hfc0, hfclt⟩, hpat⟩ := jsRowCell_ok_some h1
  obtain ⟨⟨htr0, htrlt⟩, ⟨htc0, htclt⟩, htat⟩ := jsRowCell_ok_some h2
  rw [getD_row_length hrows hfrlt] at hfclt
  rw [getD_row_length hrows htrlt] at htclt
  rw [hlen] at hfrlt htrlt
  simp only [Bool.and_eq_true, beq_iff_eq, not_and] at hss
  have hne : mv.fr.toNat ≠ mv.tr.toNat ∨ mv.fc.toNat ≠ mv.tc.toNat := by omega
  subst hcommit
  have hundo : undoState (commitMove st mv piece target) =
      (true,
        { board := setc (setc (commitMove st mv piece target).board mv.fr mv.fc piece)
            mv.tr mv.tc target,
          moves := st.moves,
          sideToMove := if (if st.sideToMove == 'w' then 'b' else 'w') == 'w'
            then 'b' else 'w',
          moveList := st.moveList }) := rfl
  refine ⟨by rw [hundo], ?_, ?_, by rw [hundo], by rw [hundo]⟩
  · intro r c
    rw [hundo]
    simp only [commitMove, atc, setc]
    rw [hpat]
    exact natAt_roundtrip st.board mv.fr.toNat mv.fc.toNat mv.tr.toNat mv.tc.toNat
      piece target hlen hrows hfrlt hfclt htrlt htclt hne hpat htat r.toNat c.toNat
  · rw [hundo]
    rcases hside with h | h <;> rw [h] <;> rfl

theorem C2_roundtrip_after_accepted_move_witness :
    (undoState (commitMove initState (Move.mk 6 4 4 4) 'P' '.')).2.sideToMove =
        initState.sideToMove ∧
      atc (undoState (commitMove initState (Move.mk 6 4 4 4) 'P' '.')).2.board 6 4 =
        atc initState.board 6 4 :=
  ⟨(C2_roundtrip_after_accepted_move initState (Move.mk 6 4 4 4)
      (commitMove initState (Move.mk 6 4 4 4) 'P' '.')
      (by decide) (by decide) (Or.inl rfl) (by decide) (by rfl)).2.2.1,
   (C2_roundtrip_after_accepted_move initState (Move.mk 6 4 4 4)
      (commitMove initState (Move.mk 6 4 4 4) 'P' '.')
      (by decide) (by decide) (Or.inl rfl) (by decide) (by rfl)).2.1 6 4⟩

/-- C2 (counterexample to the claim as stated): the claim quantifies over
ALL generated moves, but the generator emits moves `makeMoveIfLegal`
rejects (White same-color captures, see C3).  After such a rejection
nothing was pushed, so "one undo" pops an EARLIER move: with one move
already in the history, executing the generated move b1→(6,3) (rejected,
state unchanged) and then undoing flips the side to move and changes cell
(4,4) — the pre-move state is not restored. -/
theorem C2_counterexample_rejected_then_undo :
    Move.mk 7 1 6 3 ∈ generateMovesForSide histState.board histState.sideToMove ∧
    makeMoveIfLegal histState (Move.mk 7 1 6 3) = Except.ok (false, histState) ∧
    (undoState histState).2.sideToMove ≠ histState.sideToMove ∧
    atc (undoState histState).2.board 4 4 ≠ atc histState.board 4 4 := by
  exact ⟨by decide, by rfl, by decide, by decide⟩

/-! #### Order kit for `XInt` -/

lemma XInt.le_refl (a : XInt) : XInt.le a a = true := by
  cases a <;> simp [XInt.le]

lemma XInt.le_trans {a b c : XInt} (h1 : XInt.le a b = true) (h2 : XInt.le b c = true) :
    XInt.le a c = true := by
  cases a <;> cases b <;> cases c <;> simp_all [XInt.le] <;> omega

lemma XInt.le_total (a b : XInt) : XInt.le a b = true ∨ XInt.le b a = true := by
  cases a <;> cases b <;> simp [XInt.le] <;> omega

lemma XInt.le_antisymm {a b : XInt} (h1 : XInt.le a b = true) (h2 : XInt.le b a = true) :
    a = b := by
  cases a <;> cases b <;> simp_all [XInt.le] <;> omega

lemma XInt.lt_iff_not_le {a b : XInt} : XInt.lt a b = true ↔ ¬(XInt.le b a = true) := by
  cases a <;> cases b <;> simp [XInt.le, XInt.lt] <;> omega

lemma XInt.le_of_lt {a b : XInt} (h : XInt.lt a b = true) : XInt.le a b = true := by
  cases a <;> cases b <;> simp_all [XInt.le, XInt.lt] <;> omega

lemma XInt.lt_irrefl (a : XInt) : ¬(XInt.lt a a = true) := by
  cases a <;> simp [XInt.lt]

lemma XInt.lt_of_le_of_lt {a b c : XInt} (h1 : XInt.le a b = true) (h2 : XInt.lt b c = true) :
    XInt.lt a c = true := by
  cases a <;> cases b <;> cases c <;> simp_all [XInt.le, XInt.lt] <;> omega

lemma XInt.lt_of_lt_of_le {a b c : XInt} (h1 : XInt.lt a b = true) (h2 : XInt.le b c = true) :
    XInt.lt a c = true := by
  cases a <;> cases b <;> cases c <;> simp_all [XInt.le, XInt.lt] <;> omega

lemma XInt.le_of_not_lt {a b : XInt} (h : ¬(XInt.lt a b = true)) : XInt.le b a = true := by
  cases a <;> cases b <;> simp_all [XInt.le, XInt.lt] <;> omega

lemma XInt.le_max_left (a b : XInt) : XInt.le a (XInt.max a b) = true := by
  cases a <;> cases b <;> simp [XInt.le, XInt.max] <;> omega

lemma XInt.le_max_right (a b : XInt) : XInt.le b (XInt.max a b) = true := by
  cases a <;> cases b <;> simp [XInt.le, XInt.max] <;> omega

lemma XInt.max_le {a b c : XInt} (h1 : XInt.le a c = true) (h2 : XInt.le b c = true) :
    XInt.le (XInt.max a b) c = true := by
  cases a <;> cases b <;> cases c <;> simp_all [XInt.le, XInt.max] <;> omega

lemma XInt.max_eq_left {a b : XInt} (h : XInt.le b a = true) : XInt.max a b = a := by
  cases a <;> cases b <;> simp_all [XInt.le, XInt.max] <;> omega

lemma XInt.max_eq_right {a b : XInt} (h : XInt.le a b = true) : XInt.max a b = b := by
  cases a <;> cases b <;> simp_all [XInt.le, XInt.max]

lemma XInt.max_assoc (a b c : XInt) :
    XInt.max (XInt.max a b) c = XInt.max a (XInt.max b c) := by
  cases a <;> cases b <;> cases c <;> simp [XInt.max] <;> omega

lemma XInt.max_negInf_right (a : XInt) : XInt.max a XInt.negInf = a := by
  cases a <;> simp [XInt.max]

lemma XInt.max_negInf_left (a : XInt) : XInt.max XInt.negInf a = a := by
  cases a <;> rfl

lemma XInt.max_eq_right_of_lt_self {x r : XInt} (h : XInt.lt x (XInt.max x r) = true) :
    XInt.max x r = r := by
  rcases XInt.le_total r x with hle | hle
  · rw [XInt.max_eq_left hle] at h
    exact absurd h (XInt.lt_irrefl x)
  · exact XInt.max_eq_right hle

lemma XInt.min_le_left (a b : XInt) : XInt.le (XInt.min a b) a = true := by
  cases a <;> cases b <;> simp [XInt.le, XInt.min] <;> omega

lemma XInt.min_le_right (a b : XInt) : XInt.le (XInt.min a b) b = true := by
  cases a <;> cases b <;> simp [XInt.le, XInt.min] <;> omega

lemma XInt.le_min {a b c : XInt} (h1 : XInt.le c a = true) (h2 : XInt.le c b = true) :
    XInt.le c (XInt.min a b) = true := by
  cases a <;> cases b <;> cases c <;> simp_all [XInt.le, XInt.min] <;> omega

lemma XInt.min_eq_left {a b : XInt} (h : XInt.le a b = true) : XInt.min a b = a := by
  cases a <;> cases b <;> simp_all [XInt.le, XInt.min]

lemma XInt.min_eq_right {a b : XInt} (h : XInt.le b a = true) : XInt.min a b = b := by
  cases a <;> cases b <;> simp_all [XInt.le, XInt.min]

lemma XInt.min_assoc (a b c : XInt) :
    XInt.min (XInt.min a b) c = XInt.min a (XInt.min b c) := by
  cases a <;> cases b <;> cases c <;> simp [XInt.min] <;> omega

lemma XInt.min_posInf_right (a : XInt) : XInt.min a XInt.posInf = a := by
  cases a <;> simp [XInt.min]

lemma XInt.min_posInf_left (a : XInt) : XInt.min XInt.posInf a = a := by
  cases a <;> rfl

lemma XInt.min_eq_right_of_lt_self {x r : XInt} (h : XInt.lt (XInt.min x r) x = true) :
    XInt.min x r = r := by
  rcases XInt.le_total x r with hle | hle
  · rw [XInt.min_eq_left hle] at h
    exact absurd h (XInt.lt_irrefl x)
  · exact XInt.min_eq_right hle

/-! #### Fail-hard alpha-beta correctness

`minimax` with window `(α,β)` relates to the unpruned value `v` by the
classical fail-hard contract: if `v ≤ α` the result is `≤ α`; if
`α < v < β` the result is exactly `v`; if `v ≥ β` the result is `≥ β`.
With the full window `(-∞,+∞)` used at every root child this gives exact
agreement with the unpruned recursion. -/

lemma foldl_max_acc (g : Move → XInt) :
    ∀ (ms : List Move) (acc : XInt),
      ms.foldl (fun a mv => XInt.max a (g mv)) acc =
        XInt.max acc (ms.foldl (fun a mv => XInt.max a (g mv)) XInt.negInf) := by
  intro ms
  induction ms with
  | nil =>
    intro acc
    simp only [List.foldl_nil]
    rw [XInt.max_negInf_right]
  | cons mv rest ih =>
    intro acc
    simp only [List.foldl_cons]
    rw [ih (XInt.max acc (g mv)), ih (XInt.max XInt.negInf (g mv)), XInt.max_assoc,
      XInt.max_negInf_left]

lemma foldl_min_acc (g : Move → XInt) :
    ∀ (ms : List Move) (acc : XInt),
      ms.foldl (fun a mv => XInt.min a (g mv)) acc =
        XInt.min acc (ms.foldl (fun a mv => XInt.min a (g mv)) XInt.posInf) := by
  intro ms
  induction ms with
  | nil =>
    intro acc
    simp only [List.foldl_nil]
    rw [XInt.min_posInf_right]
  | cons mv rest ih =>
    intro acc
    simp only [List.foldl_cons]
    rw [ih (XInt.min acc (g mv)), ih (XInt.min XInt.posInf (g mv)), XInt.min_assoc,
      XInt.min_posInf_left]

lemma le_foldl_max (g : Move → XInt) (ms : List Move) (acc : XInt) :
    XInt.le acc (ms.foldl (fun a mv => XInt.max a (g mv)) acc) = true := by
  rw [foldl_max_acc]
  exact XInt.le_max_left _ _

lemma foldl_min_le (g : Move → XInt) (ms : List Move) (acc : XInt) :
    XInt.le (ms.foldl (fun a mv => XInt.min a (g mv)) acc) acc = true := by
  rw [foldl_min_acc]
  exact XInt.min_le_left _ _

/-- Fail-hard contract for the maximizing loop of `minimax`, by induction
along the move list.  `f nb a` is the pruned child evaluation at alpha `a`
(beta fixed at `β`), `g nb` the exact child value; the loop state satisfies
the invariant `alpha = max α₀ maxEval`. -/
lemma abMaxLoop_tri (f : Board → XInt → XInt) (g : Board → XInt) (b : Board)
    (β α₀ : XInt) (hαβ : XInt.lt α₀ β = true) :
    ∀ (ms : List Move) (maxEval alpha : XInt),
      alpha = XInt.max α₀ maxEval →
      XInt.lt alpha β = true →
      (∀ mv ∈ ms, ∀ a, XInt.lt a β = true →
        (XInt.le (g (makeMoveOnBoard b mv)) a = true →
          XInt.le (f (makeMoveOnBoard b mv) a) a = true) ∧
        (XInt.lt a (g (makeMoveOnBoard b mv)) = true →
          XInt.lt (g (makeMoveOnBoard b mv)) β = true →
          f (makeMoveOnBoard b mv) a = g (makeMoveOnBoard b mv)) ∧
        (XInt.le β (g (makeMoveOnBoard b mv)) = true →
          XInt.le β (f (makeMoveOnBoard b mv) a) = true)) →
      (XInt.le (ms.foldl (fun acc mv => XInt.max acc (g (makeMoveOnBoard b mv))) maxEval)
          α₀ = true →
        XInt.le (abMaxLoop f b β ms maxEval alpha) α₀ = true) ∧
      (XInt.lt α₀ (ms.foldl (fun acc mv => XInt.max acc (g (makeMoveOnBoard b mv)))
          maxEval) = true →
        XInt.lt (ms.foldl (fun acc mv => XInt.max acc (g (makeMoveOnBoard b mv)))
          maxEval) β = true →
        abMaxLoop f b β ms maxEval alpha =
          ms.foldl (fun acc mv => XInt.max acc (g (makeMoveOnBoard b mv))) maxEval) ∧
      (XInt.le β (ms.foldl (fun acc mv => XInt.max acc (g (makeMoveOnBoard b mv)))
          maxEval) = true →
        XInt.le β (abMaxLoop f b β ms maxEval alpha) = true) := by
  intro ms
  induction ms with
  | nil =>
    intro maxEval alpha _ _ _
    exact ⟨fun h => h, fun _ _ => rfl, fun h => h⟩
  | cons mv rest ih =>
    intro maxEval alpha hinv hlt hch
    have tri := hch mv (List.mem_cons_self mv rest) alpha hlt
    have hα₀le : XInt.le α₀ alpha = true := hinv ▸ XInt.le_max_left α₀ maxEval
    have hmele : XInt.le maxEval alpha = true := hinv ▸ XInt.le_max_right α₀ maxEval
    simp only [abMaxLoop, List.foldl_cons]
    by_cases hbw : XInt.le β (g (makeMoveOnBoard b mv)) = true
    · -- the child's exact value fails high: cutoff
      have hevβ : XInt.le β (f (makeMoveOnBoard b mv) alpha) = true := tri.2.2 hbw
      have hcut : XInt.le β (XInt.max alpha (f (makeMoveOnBoard b mv) alpha)) = true :=
        XInt.le_trans hevβ (XInt.le_max_right _ _)
      rw [if_pos hcut]
      have hβv : XInt.le β
          (rest.foldl (fun acc m => XInt.max acc (g (makeMoveOnBoard b m)))
            (XInt.max maxEval (g (makeMoveOnBoard b mv)))) = true :=
        XInt.le_trans (XInt.le_trans hbw (XInt.le_max_right maxEval _))
          (le_foldl_max _ rest _)
      refine ⟨?_, ?_, ?_⟩
      · intro hvα₀
        exact absurd hvα₀ (XInt.lt_iff_not_le.mp (XInt.lt_of_lt_of_le hαβ hβv))
      · intro _ hvβ
        exact absurd hβv (XInt.lt_iff_not_le.mp hvβ)
      · intro _
        exact XInt.le_trans hevβ (XInt.le_max_right _ _)
    · have hwβ : XInt.lt (g (makeMoveOnBoard b mv)) β = true := XInt.lt_iff_not_le.mpr hbw
      by_cases haw : XInt.lt alpha (g (makeMoveOnBoard b mv)) = true
      · -- the child's exact value is inside the window: exact score, no cutoff
        have hevw : f (makeMoveOnBoard b mv) alpha = g (makeMoveOnBoard b mv) :=
          tri.2.1 haw hwβ
        rw [hevw, XInt.max_eq_right (XInt.le_of_lt haw)]
        rw [if_neg (by exact XInt.lt_iff_not_le.mp hwβ)]
        exact ih (XInt.max maxEval (g (makeMoveOnBoard b mv)))
          (g (makeMoveOnBoard b mv))
          (by rw [← XInt.max_assoc, ← hinv,
              XInt.max_eq_right (XInt.le_of_lt haw)])
          hwβ
          (fun m hm => hch m (List.mem_cons_of_mem mv hm))
      · -- the child's exact value fails low: the score is only bounded
        have hwa : XInt.le (g (makeMoveOnBoard b mv)) alpha = true := XInt.le_of_not_lt haw
        have heva : XInt.le (f (makeMoveOnBoard b mv) alpha) alpha = true := tri.1 hwa
        rw [XInt.max_eq_left heva]
        rw [if_neg (by exact XInt.lt_iff_not_le.mp hlt)]
        have ihh := ih (XInt.max maxEval (f (makeMoveOnBoard b mv) alpha)) alpha
          (by rw [← XInt.max_assoc, ← hinv, XInt.max_eq_left heva])
          hlt
          (fun m hm => hch m (List.mem_cons_of_mem mv hm))
        have hv := foldl_max_acc (fun m => g (makeMoveOnBoard b m)) rest
          (XInt.max maxEval (g (makeMoveOnBoard b mv)))
        have hv2 := foldl_max_acc (fun m => g (makeMoveOnBoard b m)) rest
          (XInt.max maxEval (f (makeMoveOnBoard b mv) alpha))
        refine ⟨?_, ?_, ?_⟩
        · intro hvle
          have hmwle : XInt.le (XInt.max maxEval (g (makeMoveOnBoard b mv))) α₀ = true := by
            rw [hv] at hvle
            exact XInt.le_trans (XInt.le_max_left _ _) hvle
          have hRle' : XInt.le
              (rest.foldl (fun acc m => XInt.max acc (g (makeMoveOnBoard b m)))
                XInt.negInf) α₀ = true := by
            rw [hv] at hvle
            exact XInt.le_trans (XInt.le_max_right _ _) hvle
          have hmle : XInt.le maxEval α₀ = true :=
            XInt.le_trans (XInt.le_max_left _ _) hmwle
          have halphale : XInt.le alpha α₀ = true :=
            hinv ▸ XInt.max_le (XInt.le_refl α₀) hmle
          have hevle : XInt.le (f (makeMoveOnBoard b mv) alpha) α₀ = true :=
            XInt.le_trans heva halphale
          exact ihh.1 (by
            rw [hv2]
            exact XInt.max_le (XInt.max_le hmle hevle) hRle')
        · intro hαv hvβ
          by_cases hme : XInt.le maxEval α₀ = true
          · have halphaeq : alpha = α₀ :=
              XInt.le_antisymm (hinv ▸ XInt.max_le (XInt.le_refl α₀) hme) hα₀le
            have hmwle : XInt.le (XInt.max maxEval (g (makeMoveOnBoard b mv))) α₀ = true :=
              XInt.max_le hme (halphaeq ▸ hwa)
            have hvR : rest.foldl (fun acc m => XInt.max acc (g (makeMoveOnBoard b m)))
                (XInt.max maxEval (g (makeMoveOnBoard b mv))) =
              rest.foldl (fun acc m => XInt.max acc (g (makeMoveOnBoard b m)))
                XInt.negInf := by
              rw [hv]
              exact XInt.max_eq_right_of_lt_self
                (by rw [← hv]; exact XInt.lt_of_le_of_lt hmwle hαv)
            have hevle : XInt.le (f (makeMoveOnBoard b mv) alpha) α₀ = true :=
              XInt.le_trans heva (by rw [halphaeq]; exact XInt.le_refl α₀)
            have hv2R : rest.foldl (fun acc m => XInt.max acc (g (makeMoveOnBoard b m)))
                (XInt.max maxEval (f (makeMoveOnBoard b mv) alpha)) =
              rest.foldl (fun acc m => XInt.max acc (g (makeMoveOnBoard b m)))
                XInt.negInf := by
              rw [hv2]
              apply XInt.max_eq_right
              exact XInt.le_trans (XInt.max_le hme hevle)
                (XInt.le_of_lt (by rw [← hvR]; exact hαv))
            rw [ihh.2.1 (by rw [hv2R, ← hvR]; exact hαv) (by rw [hv2R, ← hvR]; exact hvβ),
              hv2R, hvR]
          · have hαme : XInt.lt α₀ maxEval = true := XInt.lt_iff_not_le.mpr hme
            have halphaeq : alpha = maxEval := by
              rw [hinv]
              exact XInt.max_eq_right (XInt.le_of_lt hαme)
            have hmw : XInt.max maxEval (g (makeMoveOnBoard b mv)) = maxEval :=
              XInt.max_eq_left (halphaeq ▸ hwa)
            have hmev : XInt.max maxEval (f (makeMoveOnBoard b mv) alpha) = maxEval :=
              XInt.max_eq_left (halphaeq ▸ heva)
            rw [hmev] at ihh
            rw [hmw] at hαv hvβ
            rw [hmev, hmw]
            exact ihh.2.1 hαv hvβ
        · intro hβv
          have hmwa : XInt.le (XInt.max maxEval (g (makeMoveOnBoard b mv))) alpha = true :=
            XInt.max_le hmele hwa
          have hvR : rest.foldl (fun acc m => XInt.max acc (g (makeMoveOnBoard b m)))
              (XInt.max maxEval (g (makeMoveOnBoard b mv))) =
            rest.foldl (fun acc m => XInt.max acc (g (makeMoveOnBoard b m)))
              XInt.negInf := by
            rw [hv]
            exact XInt.max_eq_right_of_lt_self
              (by rw [← hv]
                  exact XInt.lt_of_lt_of_le (XInt.lt_of_le_of_lt hmwa hlt) hβv)
          have hβR : XInt.le β (rest.foldl
              (fun acc m => XInt.max acc (g (makeMoveOnBoard b m))) XInt.negInf) = true := by
            rw [← hvR]
            exact hβv
          exact ihh.2.2 (by rw [hv2]; exact XInt.le_trans hβR (XInt.le_max_right _ _))

/-- Fail-hard contract for the minimizing loop of `minimax`: the dual of
`abMaxLoop_tri`.  `f nb bta` is the pruned child evaluation at beta `bta`
(alpha fixed at `α`), `g nb` the exact child value; the loop state
satisfies the invariant `beta = min β₀ minEval`. -/
lemma abMinLoop_tri (f : Board → XInt → XInt) (g : Board → XInt) (b : Board)
    (α β₀ : XInt) (hαβ : XInt.lt α β₀ = true) :
    ∀ (ms : List Move) (minEval beta : XInt),
      beta = XInt.min β₀ minEval →
      XInt.lt α beta = true →
      (∀ mv ∈ ms, ∀ a, XInt.lt α a = true →
        (XInt.le (g (makeMoveOnBoard b mv)) α = true →
          XInt.le (f (makeMoveOnBoard b mv) a) α = true) ∧
        (XInt.lt α (g (makeMoveOnBoard b mv)) = true →
          XInt.lt (g (makeMoveOnBoard b mv)) a = true →
          f (makeMoveOnBoard b mv) a = g (makeMoveOnBoard b mv)) ∧
        (XInt.le a (g (makeMoveOnBoard b mv)) = true →
          XInt.le a (f (makeMoveOnBoard b mv) a) = true)) →
      (XInt.le (ms.foldl (fun acc mv => XInt.min acc (g (makeMoveOnBoard b mv))) minEval)
          α = true →
        XInt.le (abMinLoop f b α ms minEval beta) α = true) ∧
      (XInt.lt α (ms.foldl (fun acc mv => XInt.min acc (g (makeMoveOnBoard b mv)))
          minEval) = true →
        XInt.lt (ms.foldl (fun acc mv => XInt.min acc (g (makeMoveOnBoard b mv)))
          minEval) β₀ = true →
        abMinLoop f b α ms minEval beta =
          ms.foldl (fun acc mv => XInt.min acc (g (makeMoveOnBoard b mv))) minEval) ∧
      (XInt.le β₀ (ms.foldl (fun acc mv => XInt.min acc (g (makeMoveOnBoard b mv)))
          minEval) = true →
        XInt.le β₀ (abMinLoop f b α ms minEval beta) = true) := by
  intro ms
  induction ms with
  | nil =>
    intro minEval beta _ _ _
    exact ⟨fun h => h, fun _ _ => rfl, fun h => h⟩
  | cons mv rest ih =>
    intro minEval beta hinv hlt hch
    have tri := hch mv (List.mem_cons_self mv rest) beta hlt
    have hβ₀le : XInt.le beta β₀ = true := hinv ▸ XInt.min_le_left β₀ minEval
    have hmele : XInt.le beta minEval = true := hinv ▸ XInt.min_le_right β₀ minEval
    simp only [abMinLoop, List.foldl_cons]
    by_cases hbw : XInt.le (g (makeMoveOnBoard b mv)) α = true
    · -- the child's exact value fails low: cutoff
      have hevα : XInt.le (f (makeMoveOnBoard b mv) beta) α = true := tri.1 hbw
      have hcut : XInt.le (XInt.min beta (f (makeMoveOnBoard b mv) beta)) α = true :=
        XInt.le_trans (XInt.min_le_right _ _) hevα
      rw [if_pos hcut]
      have hvα : XInt.le
          (rest.foldl (fun acc m => XInt.min acc (g (makeMoveOnBoard b m)))
            (XInt.min minEval (g (makeMoveOnBoard b mv)))) α = true :=
        XInt.le_trans (XInt.le_trans (foldl_min_le _ rest _)
          (XInt.min_le_right minEval _)) hbw
      refine ⟨?_, ?_, ?_⟩
      · intro _
        exact XInt.le_trans (XInt.min_le_right _ _) hevα
      · intro hαv _
        exact absurd hvα (XInt.lt_iff_not_le.mp hαv)
      · intro hβv
        exact absurd hvα (XInt.lt_iff_not_le.mp
          (XInt.lt_of_lt_of_le hαβ hβv))
    · have hαw : XInt.lt α (g (makeMoveOnBoard b mv)) = true := XInt.lt_iff_not_le.mpr hbw
      by_cases hwb : XInt.lt (g (makeMoveOnBoard b mv)) beta = true
      · -- the child's exact value is inside the window: exact score, no cutoff
        have hevw : f (makeMoveOnBoard b mv) beta = g (makeMoveOnBoard b mv) :=
          tri.2.1 hαw hwb
        rw [hevw, XInt.min_eq_right (XInt.le_of_lt hwb)]
        rw [if_neg (by exact XInt.lt_iff_not_le.mp hαw)]
        exact ih (XInt.min minEval (g (makeMoveOnBoard b mv)))
          (g (makeMoveOnBoard b mv))
          (by rw [← XInt.min_assoc, ← hinv,
              XInt.min_eq_right (XInt.le_of_lt hwb)])
          hαw
          (fun m hm => hch m (List.mem_cons_of_mem mv hm))
      · -- the child's exact value fails high: the score is only bounded
        have hbw' : XInt.le beta (g (makeMoveOnBoard b mv)) = true := XInt.le_of_not_lt hwb
        have hevb : XInt.le beta (f (makeMoveOnBoard b mv) beta) = true := tri.2.2 hbw'
        rw [XInt.min_eq_left hevb]
        rw [if_neg (by exact XInt.lt_iff_not_le.mp hlt)]
        have ihh := ih (XInt.min minEval (f (makeMoveOnBoard b mv) beta)) beta
          (by rw [← XInt.min_assoc, ← hinv, XInt.min_eq_left hevb])
          hlt
          (fun m hm => hch m (List.mem_cons_of_mem mv hm))
        have hv := foldl_min_acc (fun m => g (makeMoveOnBoard b m)) rest
          (XInt.min minEval (g (makeMoveOnBoard b mv)))
        have hv2 := foldl_min_acc (fun m => g (makeMoveOnBoard b m)) rest
          (XInt.min minEval (f (makeMoveOnBoard b mv) beta))
        refine ⟨?_, ?_, ?_⟩
        · intro hvle
          have hmwblocked : XInt.le beta (XInt.min minEval (g (makeMoveOnBoard b mv))) = true :=
            XInt.le_min hmele hbw'
          have hvR : rest.foldl (fun acc m => XInt.min acc (g (makeMoveOnBoard b m)))
              (XInt.min minEval (g (makeMoveOnBoard b mv))) =
            rest.foldl (fun acc m => XInt.min acc (g (makeMoveOnBoard b m)))
              XInt.posInf := by
            rw [hv]
            exact XInt.min_eq_right_of_lt_self
              (by rw [← hv]
                  exact XInt.lt_of_le_of_lt hvle
                    (XInt.lt_of_lt_of_le hlt hmwblocked))
          have hRle : XInt.le (rest.foldl
              (fun acc m => XInt.min acc (g (makeMoveOnBoard b m))) XInt.posInf) α = true := by
            rw [← hvR]
            exact hvle
          exact ihh.1 (by
            rw [hv2]
            exact XInt.le_trans (XInt.min_le_right _ _) hRle)
        · intro hαv hvβ
          by_cases hme : XInt.le β₀ minEval = true
          · have hbetaeq : beta = β₀ := by
              rw [hinv]
              exact XInt.min_eq_left hme
            have hmwge : XInt.le β₀ (XInt.min minEval (g (makeMoveOnBoard b mv))) = true :=
              XInt.le_min hme (hbetaeq ▸ hbw')
            have hvR : rest.foldl (fun acc m => XInt.min acc (g (makeMoveOnBoard b m)))
                (XInt.min minEval (g (makeMoveOnBoard b mv))) =
              rest.foldl (fun acc m => XInt.min acc (g (makeMoveOnBoard b m)))
                XInt.posInf := by
              rw [hv]
              exact XInt.min_eq_right_of_lt_self
                (by rw [← hv]; exact XInt.lt_of_lt_of_le hvβ hmwge)
            have hevge : XInt.le β₀ (f (makeMoveOnBoard b mv) beta) = true := by
              rw [← hbetaeq]
              exact hevb
            have hv2R : rest.foldl (fun acc m => XInt.min acc (g (makeMoveOnBoard b m)))
                (XInt.min minEval (f (makeMoveOnBoard b mv) beta)) =
              rest.foldl (fun acc m => XInt.min acc (g (makeMoveOnBoard b m)))
                XInt.posInf := by
              rw [hv2]
              apply XInt.min_eq_right
              exact XInt.le_trans
                (XInt.le_of_lt (by rw [← hvR]; exact hvβ))
                (XInt.le_min hme hevge)
            rw [ihh.2.1 (by rw [hv2R, ← hvR]; exact hαv) (by rw [hv2R, ← hvR]; exact hvβ),
              hv2R, hvR]
          · have hmeβ : XInt.lt minEval β₀ = true := XInt.lt_iff_not_le.mpr hme
            have hbetaeq : beta = minEval := by
              rw [hinv]
              exact XInt.min_eq_right (XInt.le_of_lt hmeβ)
            have hmw : XInt.min minEval (g (makeMoveOnBoard b mv)) = minEval :=
              XInt.min_eq_left (hbetaeq ▸ hbw')
            have hmev : XInt.min minEval (f (makeMoveOnBoard b mv) beta) = minEval :=
              XInt.min_eq_left (hbetaeq ▸ hevb)
            rw [hmev] at ihh
            rw [hmw] at hαv hvβ
            rw [hmev, hmw]
            exact ihh.2.1 hαv hvβ
        · intro hβv
          have hβmw : XInt.le β₀ (XInt.min minEval (g (makeMoveOnBoard b mv))) = true := by
            rw [hv] at hβv
            exact XInt.le_trans hβv (XInt.min_le_left _ _)
          have hβR : XInt.le β₀ (rest.foldl
              (fun acc m => XInt.min acc (g (makeMoveOnBoard b m))) XInt.posInf) = true := by
            rw [hv] at hβv
            exact XInt.le_trans hβv (XInt.min_le_right _ _)
          have hβme : XInt.le β₀ minEval = true :=
            XInt.le_trans hβmw (XInt.min_le_left _ _)
          have hbetaeq : beta = β₀ := by
            rw [hinv]
            exact XInt.min_eq_left hβme
          have hβev : XInt.le β₀ (f (makeMoveOnBoard b mv) beta) = true :=
            hbetaeq ▸ hevb
          exact ihh.2.2 (by
            rw [hv2]
            exact XInt.le_min (XInt.le_min hβme hβev) hβR)

/-- Fail-hard contract for the whole search, by induction on depth: the
alpha-beta `minimax` fails low below the window, is exact inside it, fails
high above it, relative to the unpruned value. -/
lemma minimax_tri : ∀ (d : Nat) (b : Board) (side : Char) (α β : XInt),
    XInt.lt α β = true →
    (XInt.le (minimaxUnpruned d b side) α = true →
      XInt.le (minimax d b side α β) α = true) ∧
    (XInt.lt α (minimaxUnpruned d b side) = true →
      XInt.lt (minimaxUnpruned d b side) β = true →
      minimax d b side α β = minimaxUnpruned d b side) ∧
    (XInt.le β (minimaxUnpruned d b side) = true →
      XInt.le β (minimax d b side α β) = true) := by
  intro d
  induction d with
  | zero =>
    intro b side α β _
    exact ⟨fun h => h, fun _ _ => rfl, fun h => h⟩
  | succ d ih =>
    intro b side α β hαβ
    simp only [minimax, minimaxUnpruned]
    by_cases hem : (nodeMoves b side).isEmpty = true
    · rw [if_pos hem, if_pos hem]
      exact ⟨fun h => h, fun _ _ => rfl, fun h => h⟩
    · rw [if_neg hem, if_neg hem]
      by_cases hside : (side == 'w') = true
      · rw [if_pos hside, if_pos hside]
        exact abMaxLoop_tri (fun nb a => minimax d nb 'b' a β)
          (fun nb => minimaxUnpruned d nb 'b') b β α hαβ
          (nodeMoves b side) XInt.negInf α
          (XInt.max_negInf_right α).symm hαβ
          (fun mv _ a ha => ih (makeMoveOnBoard b mv) 'b' a β ha)
      · rw [if_neg hside, if_neg hside]
        exact abMinLoop_tri (fun nb bta => minimax d nb 'w' α bta)
          (fun nb => minimaxUnpruned d nb 'w') b α β hαβ
          (nodeMoves b side) XInt.posInf β
          (XInt.min_posInf_right β).symm hαβ
          (fun mv _ a ha => ih (makeMoveOnBoard b mv) 'w' α a ha)

lemma XInt.max_fin_fin (m n : Int) :
    XInt.max (XInt.fin m) (XInt.fin n) = XInt.fin (Max.max m n) := rfl

lemma XInt.min_fin_fin (m n : Int) :
    XInt.min (XInt.fin m) (XInt.fin n) = XInt.fin (Min.min m n) := rfl

lemma foldl_max_fin (g : Move → XInt) :
    ∀ (ms : List Move), (∀ mv ∈ ms, ∃ n, g mv = XInt.fin n) →
      ∀ acc, (∃ n, acc = XInt.fin n) →
      ∃ n, ms.foldl (fun a mv => XInt.max a (g mv)) acc = XInt.fin n := by
  intro ms
  induction ms with
  | nil =>
    intro _ acc hacc
    simpa using hacc
  | cons mv rest ih =>
    intro hg acc hacc
    obtain ⟨m, hm⟩ := hacc
    obtain ⟨n, hn⟩ := hg mv (List.mem_cons_self mv rest)
    simp only [List.foldl_cons]
    exact ih (fun m hm => hg m (List.mem_cons_of_mem mv hm)) _
      ⟨Max.max m n, by rw [hm, hn, XInt.max_fin_fin]⟩

lemma foldl_min_fin (g : Move → XInt) :
    ∀ (ms : List Move), (∀ mv ∈ ms, ∃ n, g mv = XInt.fin n) →
      ∀ acc, (∃ n, acc = XInt.fin n) →
      ∃ n, ms.foldl (fun a mv => XInt.min a (g mv)) acc = XInt.fin n := by
  intro ms
  induction ms with
  | nil =>
    intro _ acc hacc
    simpa using hacc
  | cons mv rest ih =>
    intro hg acc hacc
    obtain ⟨m, hm⟩ := hacc
    obtain ⟨n, hn⟩ := hg mv (List.mem_cons_self mv rest)
    simp only [List.foldl_cons]
    exact ih (fun m hm => hg m (List.mem_cons_of_mem mv hm)) _
      ⟨Min.min m n, by rw [hm, hn, XInt.min_fin_fin]⟩

/-- The unpruned value is always finite: evaluations are integers, and a
max/min fold over finite child values starting from the first child is
finite. -/
lemma minimaxUnpruned_isFin : ∀ (d : Nat) (b : Board) (side : Char),
    ∃ n : Int, minimaxUnpruned d b side = XInt.fin n := by
  intro d
  induction d with
  | zero =>
    intro b side
    exact ⟨evaluateBoardSimple b, rfl⟩
  | succ d ih =>
    intro b side
    simp only [minimaxUnpruned]
    by_cases hem : (nodeMoves b side).isEmpty = true
    · rw [if_pos hem]
      exact ⟨evaluateBoardSimple b, rfl⟩
    · rw [if_neg hem]
      rcases hms : nodeMoves b side with _ | ⟨mv, rest⟩
      · rw [hms] at hem
        simp at hem
      · by_cases hside : (side == 'w') = true
        · rw [if_pos hside]
          simp only [List.foldl_cons]
          rw [XInt.max_negInf_left]
          exact foldl_max_fin _ rest
            (fun m _ => ih (makeMoveOnBoard b m) 'b') _
            (ih (makeMoveOnBoard b mv) 'b')
        · rw [if_neg hside]
          simp only [List.foldl_cons]
          rw [XInt.min_posInf_left]
          exact foldl_min_fin _ rest
            (fun m _ => ih (makeMoveOnBoard b m) 'w') _
            (ih (makeMoveOnBoard b mv) 'w')

/-- With the full window the alpha-beta recursion computes exactly the
unpruned minimax value. -/
lemma minimax_eq_unpruned (d : Nat) (b : Board) (side : Char) :
    minimax d b side XInt.negInf XInt.posInf = minimaxUnpruned d b side := by
  obtain ⟨n, hn⟩ := minimaxUnpruned_isFin d b side
  exact (minimax_tri d b side XInt.negInf XInt.posInf rfl).2.1
    (by rw [hn]; rfl) (by rw [hn]; rfl)

lemma rootLoop_congr (s1 s2 : Move → XInt) (side : Char) :
    ∀ (ms : List Move) (best : Option Move) (bestScore : XInt),
      (∀ mv ∈ ms, s1 mv = s2 mv) →
      rootLoop s1 side ms best bestScore = rootLoop s2 side ms best bestScore := by
  intro ms
  induction ms with
  | nil =>
    intro best bestScore _
    rfl
  | cons mv rest ih =>
    intro best bestScore hs
    simp only [rootLoop]
    rw [hs mv (List.mem_cons_self mv rest)]
    split
    · split
      · exact ih _ _ (fun m hm => hs m (List.mem_cons_of_mem mv hm))
      · exact ih _ _ (fun m hm => hs m (List.mem_cons_of_mem mv hm))
    · split
      · exact ih _ _ (fun m hm => hs m (List.mem_cons_of_mem mv hm))
      · exact ih _ _ (fun m hm => hs m (List.mem_cons_of_mem mv hm))

/-- C1: for every board, every side and every depth `1 ≤ d ≤ 3` (the depths
`minimaxRoot` is dispatched with always satisfy `d ≥ 1`), with a time
budget large enough that no deadline check triggers, the root
`(bestMove, bestScore)` pair computed by `minimaxRoot` through the pruned
`minimax` recursion equals the pair computed by the same recursion with
alpha fixed to -∞, beta fixed to +∞ and no `beta <= alpha` break. -/
theorem C1_pruning_preserves_root_choice (b : Board) (side : Char) (d : Nat)
    (h1 : 1 ≤ d) (h3 : d ≤ 3) :
    minimaxRoot b d side = minimaxRootUnpruned b d side := by
  unfold minimaxRoot minimaxRootUnpruned
  exact rootLoop_congr _ _ side _ none _
    (fun mv _ => minimax_eq_unpruned (d - 1) (makeMoveOnBoard b mv)
      (if side == 'w' then 'b' else 'w'))

theorem C1_pruning_preserves_root_choice_witness :
    1 ≤ 1 ∧ (1 : Nat) ≤ 3 ∧
      minimaxRoot twoKingsBoard 1 'w' = minimaxRootUnpruned twoKingsBoard 1 'w' :=
  ⟨Nat.le_refl 1, by decide,
    C1_pruning_preserves_root_choice twoKingsBoard 'w' 1 (Nat.le_refl 1) (by decide)⟩

lemma capturesFirst_all_noncap (b : Board) (l : List Move)
    (h : ∀ m ∈ l, isCaptureMove b m = false) : capturesFirst b l = true := by
  cases l with
  | nil => rfl
  | cons mv rest =>
    simp only [capturesFirst, h mv (List.mem_cons_self mv rest)]
    simp only [Bool.false_eq_true, if_false, List.all_eq_true]
    intro m hm
    rw [h m (List.mem_cons_of_mem mv hm)]
    rfl

lemma capturesFirst_append (b : Board) (l1 l2 : List Move)
    (h1 : ∀ m ∈ l1, isCaptureMove b m = true)
    (h2 : ∀ m ∈ l2, isCaptureMove b m = false) :
    capturesFirst b (l1 ++ l2) = true := by
  induction l1 with
  | nil => simpa using capturesFirst_all_noncap b l2 h2
  | cons mv rest ih =>
    simp only [List.cons_append, capturesFirst, h1 mv (List.mem_cons_self mv rest), if_true]
    exact ih (fun m hm => h1 m (List.mem_cons_of_mem mv hm))

/-- C6 (amended): the capture-first ordering (ties in generator order) is
applied at the ROOT only: the sorted root list always places all captures
before all non-captures, while an internal `minimax` node iterates the raw
generator output, unsorted. -/
theorem C6_captures_first_at_root_only :
    (∀ (b : Board) (ms : List Move), capturesFirst b (sortCapturesFirst b ms) = true) ∧
    (∀ (b : Board) (side : Char), nodeMoves b side = generateMovesForSide b side) := by
  constructor
  · intro b ms
    apply capturesFirst_append
    · intro m hm
      exact (List.mem_filter.mp hm).2
    · intro m hm
      have hm2 := (List.mem_filter.mp hm).2
      simpa using hm2
  · intro b side
    rfl

/-- C6 (counterexample to the claim as stated): at an internal node the
candidate list is the raw generator output, which is NOT captures-first:
for Black on `rookCaptureLastBoard` the rook's capture of the white pawn
comes after eight of its quiet moves (the root ordering of the very same
list does place it first). -/
theorem C6_counterexample_internal_order :
    capturesFirst rookCaptureLastBoard (nodeMoves rookCaptureLastBoard 'b') = false ∧
    Move.mk 0 0 0 2 ∈ nodeMoves rookCaptureLastBoard 'b' ∧
    isCaptureMove rookCaptureLastBoard (Move.mk 0 0 0 2) = true ∧
    capturesFirst rookCaptureLastBoard
      (sortCapturesFirst rookCaptureLastBoard (nodeMoves rookCaptureLastBoard 'b')) = true := by
  decide

/-! #### The generated moves are on-board -/

lemma cellsIdx_mem {rc : Int × Int} (h : rc ∈ cellsIdx) :
    0 ≤ rc.1 ∧ rc.1 < 8 ∧ 0 ≤ rc.2 ∧ rc.2 < 8 := by
  simp only [cellsIdx, List.mem_flatMap, List.mem_map, List.mem_range] at h
  obtain ⟨r, hr, c, hc, heq⟩ := h
  simp at hc
  obtain ⟨n, hn, hceq⟩ := hc
  subst hceq
  rw [← heq]
  refine ⟨?_, ?_, ?_, ?_⟩ <;> simp <;> omega

lemma inRange_spec {x : Int} (h : inRange x = true) : 0 ≤ x ∧ x < 8 := by
  simpa [inRange] using h

lemma pawnMoves_inRange (b : Board) (r c : Int) (p : Char) (w : Bool)
    (hr : 0 ≤ r ∧ r < 8) (hc : 0 ≤ c ∧ c < 8) :
    ∀ mv ∈ pawnMoves b r c p w, MoveInRange mv := by
  intro mv hm
  obtain ⟨hr1, hr2⟩ := hr
  obtain ⟨hc1, hc2⟩ := hc
  unfold MoveInRange
  simp only [pawnMoves, List.mem_append, List.mem_filterMap] at hm
  rcases hm with (hm | hm) | hm
  · split_ifs at hm <;>
      first
      | exact absurd hm (List.not_mem_nil mv)
      | (simp only [List.mem_singleton] at hm
         subst hm
         refine ⟨hr1, hr2, hc1, hc2, ?_, ?_, hc1, hc2⟩ <;> simp_all [inRange] <;> omega)
  · obtain ⟨dc, _, heq⟩ := hm
    split_ifs at heq <;>
      first
      | exact Option.noConfusion heq
      | (injection heq with heq2
         subst heq2
         refine ⟨hr1, hr2, hc1, hc2, ?_, ?_, ?_, ?_⟩ <;> simp_all [inRange] <;> omega)
  · split_ifs at hm <;>
      first
      | exact absurd hm (List.not_mem_nil mv)
      | (simp only [List.mem_singleton] at hm
         subst hm
         refine ⟨hr1, hr2, hc1, hc2, ?_, ?_, hc1, hc2⟩ <;> simp_all [inRange] <;> omega)

lemma knightKingMoves_inRange (b : Board) (r c : Int) (p : Char)
    (hr : 0 ≤ r ∧ r < 8) (hc : 0 ≤ c ∧ c < 8) (ds : List (Int × Int)) :
    ∀ mv ∈ ds.filterMap (fun d =>
      let rr := r + d.1
      let cc := c + d.2
      if !(inRange rr) || !(inRange cc) then none
      else
        let t2 := atc b rr cc
        if t2 == '.' || isOpposite (pieceColor p) t2 then some (Move.mk r c rr cc)
        else none), MoveInRange mv := by
  intro mv hm
  simp only [List.mem_filterMap] at hm
  obtain ⟨d, hd, heq⟩ := hm
  split at heq
  · exact absurd heq (by simp)
  · rename_i hg
    simp only [Bool.or_eq_true, Bool.not_eq_true'] at hg
    push_neg at hg
    split at heq
    · injection heq with heq
      subst heq
      have h1 := inRange_spec (by simpa using hg.1)
      have h2 := inRange_spec (by simpa using hg.2)
      exact ⟨hr.1, hr.2, hc.1, hc.2, h1.1, h1.2, h2.1, h2.2⟩
    · exact absurd heq (by simp)

lemma rayWalk_inRange (b : Board) (r c : Int) (p : Char) (dr dc : Int)
    (hr : 0 ≤ r ∧ r < 8) (hc : 0 ≤ c ∧ c < 8) :
    ∀ (n : Nat) (rr cc : Int), ∀ mv ∈ rayWalk b r c p dr dc n rr cc, MoveInRange mv := by
  intro n
  induction n with
  | zero =>
    intro rr cc mv hm
    simp [rayWalk] at hm
  | succ n ih =>
    intro rr cc mv hm
    simp only [rayWalk] at hm
    split at hm
    · rename_i hg
      simp only [Bool.and_eq_true] at hg
      have h1 := inRange_spec hg.1
      have h2 := inRange_spec hg.2
      split at hm
      · rcases List.mem_cons.mp hm with heq | hm2
        · subst heq
          exact ⟨hr.1, hr.2, hc.1, hc.2, h1.1, h1.2, h2.1, h2.2⟩
        · exact ih (rr + dr) (cc + dc) mv hm2
      · split at hm
        · simp only [List.mem_singleton] at hm
          subst hm
          exact ⟨hr.1, hr.2, hc.1, hc.2, h1.1, h1.2, h2.1, h2.2⟩
        · simp at hm
    · simp at hm

lemma pieceMoves_inRange (b : Board) (r c : Int) (p : Char)
    (hr : 0 ≤ r ∧ r < 8) (hc : 0 ≤ c ∧ c < 8) :
    ∀ mv ∈ pieceMoves b r c p, MoveInRange mv := by
  intro mv hm
  simp only [pieceMoves] at hm
  split at hm
  · exact pawnMoves_inRange b r c p _ hr hc mv hm
  · split at hm
    · exact knightKingMoves_inRange b r c p hr hc knightDeltas mv hm
    · split at hm
      · simp only [sliderMoves, List.mem_flatMap] at hm
        obtain ⟨d, _, hm2⟩ := hm
        exact rayWalk_inRange b r c p d.1 d.2 hr hc 8 (r + d.1) (c + d.2) mv hm2
      · split at hm
        · exact knightKingMoves_inRange b r c p hr hc kingDeltas mv hm
        · simp at hm

lemma generateMoves_inRange (b : Board) (side : Char) :
    ∀ mv ∈ generateMovesForSide b side, MoveInRange mv := by
  intro mv hm
  simp only [generateMovesForSide, List.mem_flatMap] at hm
  obtain ⟨rc, hrc, hm2⟩ := hm
  obtain ⟨h1, h2, h3, h4⟩ := cellsIdx_mem hrc
  split at hm2
  · simp at hm2
  · split at hm2
    · simp at hm2
    · exact pieceMoves_inRange b rc.1 rc.2 _ ⟨h1, h2⟩ ⟨h3, h4⟩ mv hm2

/-! #### The search leaves every pre-existing heap row unchanged -/

lemma heapExt_refl (h : Heap) : HeapExt h h :=
  ⟨Nat.le_refl _, fun _ _ => rfl⟩

lemma heapExt_trans {g1 g2 g3 : Heap} (a : HeapExt g1 g2) (b : HeapExt g2 g3) :
    HeapExt g1 g3 :=
  ⟨Nat.le_trans a.1 b.1, fun i hi => (b.2 i (Nat.lt_of_lt_of_le hi a.1)).trans (a.2 i hi)⟩

lemma heapExt_append (h : Heap) (l : List (List Char)) : HeapExt h (h ++ l) := by
  refine ⟨by simp, fun i hi => ?_⟩
  rw [List.getD_eq_getElem?_getD, List.getD_eq_getElem?_getD,
    List.getElem?_append_left hi]

lemma heapExt_set_of_le {h h2 : Heap} (hx : HeapExt h h2) (idx : Nat) (row : List Char)
    (hidx : h.length ≤ idx) : HeapExt h (h2.set idx row) := by
  refine ⟨by rw [List.length_set]; exact hx.1, fun i hi => ?_⟩
  rw [List.getD_eq_getElem?_getD, List.getElem?_set_ne (by omega : idx ≠ i),
    ← List.getD_eq_getElem?_getD]
  exact hx.2 i hi

lemma heapExt_writeCellH {h h2 : Heap} (hx : HeapExt h h2) (br2 : BoardRef) (r c : Int)
    (v : Char) (hidx : h.length ≤ br2.getD r.toNat 0) :
    HeapExt h (writeCellH h2 br2 r c v) :=
  heapExt_set_of_le hx _ _ hidx

lemma natGetD_mem_of_lt {l : List Nat} {n : Nat} (hn : n < l.length) (d : Nat) :
    l.getD n d ∈ l := by
  rw [List.getD_eq_getElem?_getD, List.getElem?_eq_getElem hn]
  exact List.getElem?_mem (List.getElem?_eq_getElem hn)

lemma cloneBoardH_spec (h : Heap) (br : BoardRef) :
    HeapExt h (cloneBoardH h br).1 ∧
    (cloneBoardH h br).2.length = br.length ∧
    (∀ i ∈ (cloneBoardH h br).2, h.length ≤ i) := by
  refine ⟨heapExt_append h _, by simp [cloneBoardH], ?_⟩
  intro i hi
  simp only [cloneBoardH, List.mem_map, List.mem_range] at hi
  obtain ⟨k, _, hk⟩ := hi
  omega

/-- Exploring one child allocates fresh rows and writes only into those:
every pre-existing heap row is untouched, and the child board consists
of fresh row references. -/
lemma makeMoveOnBoardH_spec (h : Heap) (br : BoardRef) (mv : Move)
    (hfr : mv.fr.toNat < br.length) (htr : mv.tr.toNat < br.length) :
    HeapExt h (makeMoveOnBoardH h br mv).1 ∧
    (makeMoveOnBoardH h br mv).2.length = br.length ∧
    (∀ i ∈ (makeMoveOnBoardH h br mv).2, h.length ≤ i) := by
  obtain ⟨hext, hlen, hfresh⟩ := cloneBoardH_spec h br
  have hidx1 : h.length ≤ (cloneBoardH h br).2.getD mv.tr.toNat 0 :=
    hfresh _ (natGetD_mem_of_lt (by rw [hlen]; exact htr) 0)
  have hidx2 : h.length ≤ (cloneBoardH h br).2.getD mv.fr.toNat 0 :=
    hfresh _ (natGetD_mem_of_lt (by rw [hlen]; exact hfr) 0)
  exact ⟨heapExt_writeCellH (heapExt_writeCellH hext _ _ _ _ hidx1) _ _ _ _ hidx2,
    hlen, hfresh⟩

lemma abMaxLoopH_ext (f : Heap → BoardRef → XInt → Heap × XInt) (br : BoardRef)
    (β : XInt) (hbrlen : br.length = 8)
    (hf : ∀ h2 nb a, nb.length = 8 → HeapExt h2 (f h2 nb a).1) :
    ∀ (ms : List Move) (h : Heap) (maxEval alpha : XInt),
      (∀ mv ∈ ms, MoveInRange mv) →
      HeapExt h (abMaxLoopH f br β ms h maxEval alpha).1 := by
  intro ms
  induction ms with
  | nil =>
    intro h maxEval alpha _
    exact heapExt_refl h
  | cons mv rest ih =>
    intro h maxEval alpha hms
    have hmv := hms mv (List.mem_cons_self mv rest)
    unfold MoveInRange at hmv
    have hfr : mv.fr.toNat < br.length := by rw [hbrlen]; omega
    have htr : mv.tr.toNat < br.length := by rw [hbrlen]; omega
    obtain ⟨hext1, hlen1, _⟩ := makeMoveOnBoardH_spec h br mv hfr htr
    have hext2 := hf (makeMoveOnBoardH h br mv).1 (makeMoveOnBoardH h br mv).2 alpha
      (by rw [hlen1, hbrlen])
    simp only [abMaxLoopH]
    split
    · exact heapExt_trans hext1 hext2
    · exact heapExt_trans (heapExt_trans hext1 hext2)
        (ih _ _ _ (fun m hm => hms m (List.mem_cons_of_mem mv hm)))

lemma abMinLoopH_ext (f : Heap → BoardRef → XInt → Heap × XInt) (br : BoardRef)
    (α : XInt) (hbrlen : br.length = 8)
    (hf : ∀ h2 nb a, nb.length = 8 → HeapExt h2 (f h2 nb a).1) :
    ∀ (ms : List Move) (h : Heap) (minEval beta : XInt),
      (∀ mv ∈ ms, MoveInRange mv) →
      HeapExt h (abMinLoopH f br α ms h minEval beta).1 := by
  intro ms
  induction ms with
  | nil =>
    intro h minEval beta _
    exact heapExt_refl h
  | cons mv rest ih =>
    intro h minEval beta hms
    have hmv := hms mv (List.mem_cons_self mv rest)
    unfold MoveInRange at hmv
    have hfr : mv.fr.toNat < br.length := by rw [hbrlen]; omega
    have htr : mv.tr.toNat < br.length := by rw [hbrlen]; omega
    obtain ⟨hext1, hlen1, _⟩ := makeMoveOnBoardH_spec h br mv hfr htr
    have hext2 := hf (makeMoveOnBoardH h br mv).1 (makeMoveOnBoardH h br mv).2 beta
      (by rw [hlen1, hbrlen])
    simp only [abMinLoopH]
    split
    · exact heapExt_trans hext1 hext2
    · exact heapExt_trans (heapExt_trans hext1 hext2)
        (ih _ _ _ (fun m hm => hms m (List.mem_cons_of_mem mv hm)))

/-- The recursive search only ever grows the heap with fresh rows. -/
lemma minimaxH_ext : ∀ (d : Nat) (h : Heap) (br : BoardRef) (side : Char) (α β : XInt),
    br.length = 8 → HeapExt h (minimaxH d h br side α β).1 := by
  intro d
  induction d with
  | zero =>
    intro h br side α β _
    exact heapExt_refl h
  | succ d ih =>
    intro h br side α β hbr
    simp only [minimaxH]
    split
    · exact heapExt_refl h
    · split
      · exact abMaxLoopH_ext _ br β hbr
          (fun h2 nb a hnb => ih h2 nb 'b' a β hnb) _ h XInt.negInf α
          (fun mv hmv => generateMoves_inRange (derefBoard h br) side mv hmv)
      · exact abMinLoopH_ext _ br α hbr
          (fun h2 nb a hnb => ih h2 nb 'w' α a hnb) _ h XInt.posInf β
          (fun mv hmv => generateMoves_inRange (derefBoard h br) side mv hmv)

lemma mem_sortCapturesFirst {b : Board} {ms : List Move} {mv : Move}
    (h : mv ∈ sortCapturesFirst b ms) : mv ∈ ms := by
  rcases List.mem_append.mp h with h2 | h2 <;> exact (List.mem_filter.mp h2).1

lemma rootLoopH_ext (sc : Heap → Move → Heap × XInt) (side : Char) :
    ∀ (ms : List Move) (h : Heap) (best : Option Move) (bestScore : XInt),
      (∀ mv ∈ ms, ∀ h2, HeapExt h2 (sc h2 mv).1) →
      HeapExt h (rootLoopH sc side ms h best bestScore).1 := by
  intro ms
  induction ms with
  | nil =>
    intro h best bestScore _
    exact heapExt_refl h
  | cons mv rest ih =>
    intro h best bestScore hsc
    have h1 := hsc mv (List.mem_cons_self mv rest) h
    have hrest : ∀ m ∈ rest, ∀ h2, HeapExt h2 (sc h2 m).1 :=
      fun m hm => hsc m (List.mem_cons_of_mem mv hm)
    simp only [rootLoopH]
    split
    · split
      · exact heapExt_trans h1 (ih _ _ _ hrest)
      · exact heapExt_trans h1 (ih _ _ _ hrest)
    · split
      · exact heapExt_trans h1 (ih _ _ _ hrest)
      · exact heapExt_trans h1 (ih _ _ _ hrest)

/-- C8: the search never mutates the board passed to it.  In the heap model
(boards as lists of row references, clones as fresh allocations) a whole
`minimaxRoot` call preserves every pre-existing heap row — each explored
child position is a fresh clone produced by `makeMoveOnBoard`, and all
writes target fresh rows — so after the call every cell of the caller's
board reads exactly as before. -/
theorem C8_search_never_mutates_caller_board (h : Heap) (br : BoardRef)
    (d : Nat) (side : Char)
    (hbr : br.length = 8) (hvalid : ∀ i ∈ br, i < h.length) :
    (∀ i, i < h.length →
      (minimaxRootH h br d side).1.getD i [] = h.getD i []) ∧
    derefBoard (minimaxRootH h br d side).1 br = derefBoard h br := by
  have hext : HeapExt h (minimaxRootH h br d side).1 := by
    unfold minimaxRootH
    apply rootLoopH_ext
    intro mv hmv h2
    have hmv2 := generateMoves_inRange (derefBoard h br) side mv (mem_sortCapturesFirst hmv)
    unfold MoveInRange at hmv2
    have hfr : mv.fr.toNat < br.length := by rw [hbr]; omega
    have htr : mv.tr.toNat < br.length := by rw [hbr]; omega
    obtain ⟨hext1, hlen1, _⟩ := makeMoveOnBoardH_spec h2 br mv hfr htr
    exact heapExt_trans hext1
      (minimaxH_ext (d - 1) (makeMoveOnBoardH h2 br mv).1 (makeMoveOnBoardH h2 br mv).2
        (if side == 'w' then 'b' else 'w') XInt.negInf XInt.posInf
        (by rw [hlen1, hbr]))
  refine ⟨fun i hi => hext.2 i hi, ?_⟩
  unfold derefBoard
  exact List.map_congr_left (fun i hi => hext.2 i (hvalid i hi))

theorem C8_search_never_mutates_caller_board_witness :
    (minimaxRootH twoKingsBoard boardRef8 1 'b').1.getD 0 [] =
        twoKingsBoard.getD 0 [] ∧
      derefBoard (minimaxRootH twoKingsBoard boardRef8 1 'b').1 boardRef8 =
        derefBoard twoKingsBoard boardRef8 :=
  ⟨(C8_search_never_mutates_caller_board twoKingsBoard boardRef8 1 'b'
      (by decide) (by decide)).1 0 (by decide),
   (C8_search_never_mutates_caller_board twoKingsBoard boardRef8 1 'b'
      (by decide) (by decide)).2⟩

end ChessIntrovert
